import Mathlib

/-!
Verification of the integer-key radix map from `src/imap/imap.c`.

The map stores opaque non-null values under `uint64_t` keys.  It consists of a
handle with a running entry count (`len`) and a fixed array of 32 top-level
nodes; every node holds an optional value pointer (`data`), an optional owned
array of exactly 32 child nodes (`nodes`), and an entry count for the subtree
below it (`size`).  A key is consumed least-significant base-32 digit first;
after the digit is split off, the remaining quotient is decremented by one
before descending.

Modelling conventions:
* `NULL` pointers become `none`; a present children array of 32 nodes becomes
  `some l` with `l : List (Node V)` of length 32 (`calloc` zero-initializes,
  i.e. yields 32 copies of `Node.empty`).
* `calloc`/`slist_new` outcomes are drawn from an explicit allocation oracle,
  a `List Bool` consumed one entry per allocation; an exhausted oracle means
  the allocation succeeds, so the empty oracle `[]` is the always-succeeding
  allocator.  A failed allocation yields `-1` exactly like the C code.
* `size_t` counters (`len`, `size`) are modelled as `Nat`; their increments
  can never overflow in any physically realizable execution, so no 2^64
  reduction is applied to them.  The one place where `size_t` wrap-around is
  semantically important - the remaining-budget subtraction in `imap_walkn` -
  is modelled with an explicit `% 2^64` on `Int`, matching the unsigned
  machine subtraction.
* the traversal functions are modelled by the sequence of values on which the
  callback fires (`imap_walk` additionally returns the summed callback
  results); `slist_append` is list append; `slist_object_decref` calls made
  by the union are recorded in an event trace list.
-/

set_option maxHeartbeats 1000000

/-- A trie node: optional value pointer, subtree entry count, optional owned
array of 32 children (mirrors `imap_node_t`). -/
inductive Node (V : Type) : Type where
  | mk (data : Option V) (size : Nat) (children : Option (List (Node V))) : Node V

/-- The `data` field of a node. -/
def Node.data {V : Type} : Node V → Option V
  | .mk d _ _ => d

/-- The `size` field of a node. -/
def Node.size {V : Type} : Node V → Nat
  | .mk _ s _ => s

/-- The `nodes` (children array) field of a node. -/
def Node.children {V : Type} : Node V → Option (List (Node V))
  | .mk _ _ c => c

/-- A zero-initialized node, as produced by `calloc`. -/
def Node.empty {V : Type} : Node V := Node.mk none 0 none

/-- The map handle `imap_t`: entry count `len` plus the 32 top-level nodes. -/
structure Imap (V : Type) where
  len : Nat
  nodes : List (Node V)

/-- `imap_new`: a map with `len = 0` and 32 zero-initialized top-level slots. -/
def imap_new {V : Type} : Imap V := ⟨0, List.replicate 32 Node.empty⟩

/-- Draw the outcome of the next allocation from the oracle.  An exhausted
oracle always succeeds. -/
def allocNext : List Bool → Bool × List Bool
  | [] => (true, [])
  | b :: bs => (b, bs)

/-- `IMAP_add`: recursive insert below a node.  If the node's `size` is 0 a
fresh zeroed children array is allocated (on allocation failure the children
pointer is set to `NULL` and `-1` is returned).  Returns the oracle rest, the
updated node, and the C return code (1 inserted, 0 overwritten, -1 error). -/
def IMAP_add {V : Type} (al : List Bool) (nd : Node V) (id : Nat) (v : V) :
    List Bool × Node V × Int :=
  let ar := if nd.size = 0 then allocNext al else (true, al)
  if ar.1 = false then
    (ar.2, Node.mk nd.data nd.size none, -1)
  else
    let l := if nd.size = 0 then List.replicate 32 Node.empty else nd.children.getD []
    let i := id % 32
    let q := id / 32
    let c := l.getD i Node.empty
    if hq : q = 0 then
      (ar.2,
       Node.mk nd.data (if c.data.isSome then nd.size else nd.size + 1)
         (some (l.set i (Node.mk (some v) c.size c.children))),
       if c.data.isSome then 0 else 1)
    else
      let r := IMAP_add ar.2 c (q - 1) v
      (r.1,
       Node.mk nd.data (if 0 < r.2.2 then nd.size + 1 else nd.size)
         (some (l.set i r.2.1)),
       r.2.2)
termination_by id
decreasing_by
  simp_wf
  omega

/-- `imap_add`: top-level insert.  Note that when the key fits in the top
level (quotient 0) the function returns 0 regardless of whether the slot was
previously empty, while still incrementing `len` for a fresh slot. -/
def imap_add {V : Type} (al : List Bool) (m : Imap V) (id : Nat) (v : V) :
    List Bool × Imap V × Int :=
  let i := id % 32
  let q := id / 32
  let nd := m.nodes.getD i Node.empty
  if q = 0 then
    (al,
     ⟨if nd.data.isSome then m.len else m.len + 1,
      m.nodes.set i (Node.mk (some v) nd.size nd.children)⟩,
     0)
  else
    let r := IMAP_add al nd (q - 1) v
    (r.1, ⟨if 0 < r.2.2 then m.len + 1 else m.len, m.nodes.set i r.2.1⟩, r.2.2)

/-- `IMAP_get`: recursive lookup below a node (caller guarantees the node has
a children array; an absent array can only yield `none` here). -/
def IMAP_get {V : Type} (nd : Node V) (id : Nat) : Option V :=
  let l := nd.children.getD []
  let c := l.getD (id % 32) Node.empty
  let q := id / 32
  if hq : q = 0 then c.data
  else if c.children.isNone then none
  else IMAP_get c (q - 1)
termination_by id
decreasing_by
  simp_wf
  omega

/-- `imap_get`: top-level lookup. -/
def imap_get {V : Type} (m : Imap V) (id : Nat) : Option V :=
  let c := m.nodes.getD (id % 32) Node.empty
  let q := id / 32
  if hq : q = 0 then c.data
  else if c.children.isNone then none
  else IMAP_get c (q - 1)

/-- `IMAP_pop`: recursive removal below a node.  When the node's `size` drops
to 0 its children array is freed (set to `none`). -/
def IMAP_pop {V : Type} (nd : Node V) (id : Nat) : Node V × Option V :=
  let l := nd.children.getD []
  let c := l.getD (id % 32) Node.empty
  let q := id / 32
  if hq : q = 0 then
    match c.data with
    | none => (nd, none)
    | some v =>
      if nd.size - 1 = 0 then
        (Node.mk nd.data 0 none, some v)
      else
        (Node.mk nd.data (nd.size - 1)
          (some (l.set (id % 32) (Node.mk none c.size c.children))), some v)
  else
    if c.children.isNone then (nd, none)
    else
      let r := IMAP_pop c (q - 1)
      match r.2 with
      | none => (nd, none)
      | some v =>
        if nd.size - 1 = 0 then
          (Node.mk nd.data 0 none, some v)
        else
          (Node.mk nd.data (nd.size - 1) (some (l.set (id % 32) r.1)), some v)
termination_by id
decreasing_by
  simp_wf
  omega

/-- `imap_pop`: top-level removal; decrements `len` exactly when a value was
found. -/
def imap_pop {V : Type} (m : Imap V) (id : Nat) : Imap V × Option V :=
  let i := id % 32
  let c := m.nodes.getD i Node.empty
  let q := id / 32
  if hq : q = 0 then
    match c.data with
    | none => (m, none)
    | some v =>
      (⟨m.len - 1, m.nodes.set i (Node.mk none c.size c.children)⟩, some v)
  else
    if c.children.isNone then (m, none)
    else
      let r := IMAP_pop c (q - 1)
      match r.2 with
      | none => (m, none)
      | some v => (⟨m.len - 1, m.nodes.set i r.1⟩, some v)

/-- Bound used for all structural recursions on the node tree: the children
array sits strictly below the node itself. -/
theorem sizeOf_children_getD {V : Type} (nd : Node V) :
    sizeOf (nd.children.getD []) < sizeOf nd := by
  cases nd with
  | mk d s cs =>
    cases cs with
    | none => simp [Node.children]
    | some l => simp [Node.children]; omega

mutual

/-- `IMAP_walk` over one slot: fire the callback on the slot's value (if
any), then descend into the slot's children array (if any).  Modelled by the
sequence of values the callback fires on. -/
def IMAP_walkNode {V : Type} : Node V → List V
  | .mk d _ cs =>
    (match d with
     | some v => [v]
     | none => []) ++
    (match cs with
     | none => []
     | some l => IMAP_walkList l)
termination_by nd => sizeOf nd
decreasing_by simp; try omega

/-- `IMAP_walk` over a children array: the 32 slots in ascending index
order. -/
def IMAP_walkList {V : Type} : List (Node V) → List V
  | [] => []
  | c :: rest => IMAP_walkNode c ++ IMAP_walkList rest
termination_by l => sizeOf l
decreasing_by all_goals (simp; try omega)

end

/-- `imap_walk`'s callback sequence: nothing when `len = 0`, otherwise the
depth-first ascending-slot-index traversal of the 32 top-level slots. -/
def imap_walk_order {V : Type} (m : Imap V) : List V :=
  if m.len = 0 then [] else IMAP_walkList m.nodes

/-- `imap_walk`: the summed callback results over the traversal. -/
def imap_walk {V : Type} (m : Imap V) (cb : V → Int) : Int :=
  ((imap_walk_order m).map cb).sum

/-- One budget update of `imap_walkn`: the `size_t` subtraction
`*n -= cb(value)`, i.e. subtraction modulo 2^64. -/
def walknStep {V : Type} (cb : V → Int) (n : Nat) (v : V) : Nat :=
  (((n : Int) - cb v) % (2 ^ 64 : Int)).toNat

mutual

/-- `IMAP_walkn` at one slot: fire the callback on the slot's value (if any)
and return immediately when the budget hits 0 exactly, otherwise descend into
the slot's children array (if any).  Returns the final budget and the
callback sequence. -/
def IMAP_walknNode {V : Type} (cb : V → Int) : Node V → Nat → Nat × List V
  | .mk d _ cs, n =>
    match d with
    | some v =>
      let n1 := walknStep cb n v
      if n1 = 0 then (n1, [v])
      else
        match cs with
        | none => (n1, [v])
        | some l =>
          let r := IMAP_walknList cb l n1
          (r.1, v :: r.2)
    | none =>
      match cs with
      | none => (n, [])
      | some l => IMAP_walknList cb l n
termination_by nd n => sizeOf nd
decreasing_by all_goals (simp; try omega)

/-- `IMAP_walkn` over a children array: the slot loop runs while the budget
is nonzero. -/
def IMAP_walknList {V : Type} (cb : V → Int) : List (Node V) → Nat → Nat × List V
  | [], n => (n, [])
  | c :: rest, n =>
    if n = 0 then (n, [])
    else
      let r1 := IMAP_walknNode cb c n
      let r2 := IMAP_walknList cb rest r1.1
      (r2.1, r1.2 ++ r2.2)
termination_by l n => sizeOf l
decreasing_by all_goals (simp; try omega)

end

/-- `imap_walkn`: top-level bounded traversal (skips everything when
`len = 0`). -/
def imap_walkn {V : Type} (m : Imap V) (n : Nat) (cb : V → Int) : Nat × List V :=
  if m.len = 0 then (n, []) else IMAP_walknList cb m.nodes n

mutual

/-- `IMAP_2slist` at one slot: append the slot's value (if any), then descend
into its children array (if any) - the same order as the walk. -/
def IMAP_2slistNode {V : Type} : Node V → List V
  | .mk d _ cs =>
    (match d with
     | some v => [v]
     | none => []) ++
    (match cs with
     | none => []
     | some l => IMAP_2slistList l)
termination_by nd => sizeOf nd
decreasing_by simp; try omega

/-- `IMAP_2slist` over a children array: the 32 slots in ascending order. -/
def IMAP_2slistList {V : Type} : List (Node V) → List V
  | [] => []
  | c :: rest => IMAP_2slistNode c ++ IMAP_2slistList rest
termination_by l => sizeOf l
decreasing_by all_goals (simp; try omega)

end

/-- `imap_2slist`: allocate a list (one oracle draw for `slist_new`) and
append every stored value in walk order. -/
def imap_2slist {V : Type} (al : List Bool) (m : Imap V) :
    List Bool × Option (List V) :=
  let ar := allocNext al
  if ar.1 = false then (ar.2, none)
  else (ar.2, some (if m.len = 0 then [] else IMAP_2slistList m.nodes))

/-- `imap_2slist_ref`: identical traversal; additionally increments each
appended value's reference count.  The incref events coincide with the list
elements, so the model returns the same list together with the incref trace. -/
def imap_2slist_ref {V : Type} (al : List Bool) (m : Imap V) :
    List Bool × Option (List V × List V) :=
  let ar := allocNext al
  if ar.1 = false then (ar.2, none)
  else
    let l := if m.len = 0 then [] else IMAP_2slistList m.nodes
    (ar.2, some (l, l))

mutual

/-- `IMAP_union_ref`: merge the source node's children array into the
destination node's, adding the accumulated count increment to the
destination's `size` (the source's array is freed by the C code
afterwards). -/
def IMAP_union_ref {V : Type} (dest src : Node V) : Node V × List V :=
  let r := IMAP_unionSlots (dest.children.getD []) (src.children.getD [])
  (Node.mk dest.data (dest.size + r.2.1) (some r.1), r.2.2)
termination_by sizeOf src
decreasing_by exact sizeOf_children_getD src

/-- The per-slot loop shared by `imap_union_ref` and `IMAP_union_ref`: a
source value is transferred when the destination slot is empty (count
increment 1) and reconciled by a `slist_object_decref` event when both slots
have one; a source children array is transplanted wholesale when the
destination slot has none (count increment = its `size`) and merged
recursively otherwise (count increment = the destination slot's size delta).
Returns the merged slots, the total count increment, and the decref event
trace. -/
def IMAP_unionSlots {V : Type} : List (Node V) → List (Node V) →
    List (Node V) × Nat × List V
  | ds, [] => (ds, 0, [])
  | [], _ :: _ => ([], 0, [])
  | d :: ds, s :: ss =>
    let d1 : Node V × Nat × List V :=
      match s.data, d.data with
      | some v, some _ => (d, 0, [v])
      | some v, none => (Node.mk (some v) d.size d.children, 1, [])
      | none, _ => (d, 0, [])
    let d2 : Node V × Nat × List V :=
      match s.children with
      | some _ =>
        match d1.1.children with
        | some _ =>
          let r := IMAP_union_ref d1.1 s
          (r.1, r.1.size - d1.1.size, r.2)
        | none => (Node.mk d1.1.data s.size s.children, s.size, [])
      | none => (d1.1, 0, [])
    let rest := IMAP_unionSlots ds ss
    (d2.1 :: rest.1, d1.2.1 + d2.2.1 + rest.2.1, d1.2.2 ++ d2.2.2 ++ rest.2.2)
termination_by ds ss => sizeOf ss
decreasing_by all_goals (simp; try omega)

end

/-- `imap_union_ref`: merge `source` into `dest` (skipping the slot loop when
`source.len = 0`), then free the source map and clear the caller's handle -
the source is consumed, so only the merged destination and the decref trace
remain. -/
def imap_union_ref {V : Type} (dest source : Imap V) : Imap V × List V :=
  if source.len = 0 then (dest, [])
  else
    let r := IMAP_unionSlots dest.nodes source.nodes
    (⟨dest.len + r.2.1, r.1⟩, r.2.2)

/-! ### Abstraction layer: entry counting and structural well-formedness -/

mutual

/-- Number of value-bearing nodes strictly below a node: the quantity the
`size` field tracks. -/
def Node.total {V : Type} : Node V → Nat
  | .mk _ _ none => 0
  | .mk _ _ (some l) => listTotal l
termination_by nd => sizeOf nd
decreasing_by simp; try omega

/-- Number of value-bearing nodes reachable through a slot array, the slots'
own values included. -/
def listTotal {V : Type} : List (Node V) → Nat
  | [] => 0
  | c :: rest => (if c.data.isSome then 1 else 0) + c.total + listTotal rest
termination_by l => sizeOf l
decreasing_by all_goals (simp; try omega)

end

/-- Entries contributed by one slot: its own value plus everything below. -/
def Node.cnt {V : Type} (c : Node V) : Nat :=
  (if c.data.isSome then 1 else 0) + c.total

mutual

/-- Structural well-formedness of a node: `size = 0` iff the children array
is absent; a present children array has exactly 32 well-formed slots and
`size` equals the number of entries reachable through it. -/
def nodeWF {V : Type} : Node V → Bool
  | .mk _ s none => s == 0
  | .mk _ s (some l) =>
    (l.length == 32) && (s == listTotal l) && (!(s == 0)) && listWF l
termination_by nd => sizeOf nd
decreasing_by simp; try omega

/-- Well-formedness of every node in a slot array. -/
def listWF {V : Type} : List (Node V) → Bool
  | [] => true
  | c :: rest => nodeWF c && listWF rest
termination_by l => sizeOf l
decreasing_by all_goals (simp; try omega)

end

/-- Well-formedness of a whole map: 32 well-formed top-level slots and `len`
equal to the number of entries reachable from them. -/
def imapWF {V : Type} (m : Imap V) : Bool :=
  (m.nodes.length == 32) && (m.len == listTotal m.nodes) && listWF m.nodes

/-- Left-biased choice on options (`dest` value wins over `source` value). -/
def oor {V : Type} : Option V → Option V → Option V
  | some v, _ => some v
  | none, o => o

/-! ### Small helper lemmas -/

@[simp] theorem Node.data_mk {V : Type} (d : Option V) (s : Nat)
    (cs : Option (List (Node V))) : (Node.mk d s cs).data = d := rfl

@[simp] theorem Node.size_mk {V : Type} (d : Option V) (s : Nat)
    (cs : Option (List (Node V))) : (Node.mk d s cs).size = s := rfl

@[simp] theorem Node.children_mk {V : Type} (d : Option V) (s : Nat)
    (cs : Option (List (Node V))) : (Node.mk d s cs).children = cs := rfl

theorem Node.eta {V : Type} (nd : Node V) :
    Node.mk nd.data nd.size nd.children = nd := by
  cases nd; rfl

theorem oor_none_left {V : Type} (o : Option V) : oor none o = o := rfl

theorem oor_some_left {V : Type} (v : V) (o : Option V) :
    oor (some v) o = some v := rfl

@[simp] theorem oor_none_right {V : Type} (o : Option V) : oor o none = o := by
  cases o <;> rfl

theorem getD_set_self {α : Type} (l : List α) (i : Nat) (c d0 : α)
    (h : i < l.length) : (l.set i c).getD i d0 = c := by
  induction l generalizing i with
  | nil => simp at h
  | cons a rest ih =>
    cases i with
    | zero => rfl
    | succ j => simpa using ih j (by simpa using h)

theorem getD_set_ne {α : Type} (l : List α) (i j : Nat) (c d0 : α)
    (h : i ≠ j) : (l.set i c).getD j d0 = l.getD j d0 := by
  induction l generalizing i j with
  | nil => simp [List.set]
  | cons a rest ih =>
    cases i with
    | zero =>
      cases j with
      | zero => exact absurd rfl h
      | succ j2 => rfl
    | succ i2 =>
      cases j with
      | zero => rfl
      | succ j2 => simpa using ih i2 j2 (by omega)

theorem set_getD_self {α : Type} (l : List α) (i : Nat) (d0 : α)
    (h : i < l.length) : l.set i (l.getD i d0) = l := by
  induction l generalizing i with
  | nil => simp at h
  | cons a rest ih =>
    cases i with
    | zero => rfl
    | succ j => simpa using ih j (by simpa using h)

theorem getD_replicate {α : Type} (n i : Nat) (a d0 : α) (h : i < n) :
    (List.replicate n a).getD i d0 = a := by
  induction n generalizing i with
  | zero => omega
  | succ k ih =>
    cases i with
    | zero => rfl
    | succ j => simpa [List.replicate] using ih j (by omega)

theorem listTotal_cons {V : Type} (c : Node V) (rest : List (Node V)) :
    listTotal (c :: rest) = c.cnt + listTotal rest := by
  simp [listTotal, Node.cnt]

theorem listTotal_set {V : Type} (l : List (Node V)) (i : Nat) (c : Node V)
    (h : i < l.length) :
    listTotal (l.set i c) + (l.getD i Node.empty).cnt = listTotal l + c.cnt := by
  induction l generalizing i with
  | nil => simp at h
  | cons a rest ih =>
    cases i with
    | zero =>
      simp only [List.set, List.getD_cons_zero, listTotal_cons]
      omega
    | succ j =>
      have hj : j < rest.length := by simpa using h
      simp only [List.set, List.getD_cons_succ, listTotal_cons]
      have := ih j hj
      omega

theorem cnt_getD_le {V : Type} (l : List (Node V)) (i : Nat)
    (h : i < l.length) : (l.getD i Node.empty).cnt ≤ listTotal l := by
  induction l generalizing i with
  | nil => simp at h
  | cons a rest ih =>
    cases i with
    | zero => simp [listTotal_cons]
    | succ j =>
      have hj : j < rest.length := by simpa using h
      have := ih j hj
      simp only [List.getD_cons_succ, listTotal_cons]
      omega

theorem cnt_two_le {V : Type} (l : List (Node V)) (i j : Nat) (hij : i ≠ j)
    (hi : i < l.length) (hj : j < l.length) :
    (l.getD i Node.empty).cnt + (l.getD j Node.empty).cnt ≤ listTotal l := by
  induction l generalizing i j with
  | nil => simp at hi
  | cons a rest ih =>
    cases i with
    | zero =>
      cases j with
      | zero => exact absurd rfl hij
      | succ j2 =>
        have := cnt_getD_le rest j2 (by simpa using hj)
        simp only [List.getD_cons_zero, List.getD_cons_succ, listTotal_cons]
        omega
    | succ i2 =>
      cases j with
      | zero =>
        have := cnt_getD_le rest i2 (by simpa using hi)
        simp only [List.getD_cons_zero, List.getD_cons_succ, listTotal_cons]
        omega
      | succ j2 =>
        have := ih i2 j2 (by omega) (by simpa using hi) (by simpa using hj)
        simp only [List.getD_cons_succ, listTotal_cons]
        omega

theorem listWF_cons {V : Type} (c : Node V) (rest : List (Node V)) :
    listWF (c :: rest) = (nodeWF c && listWF rest) := by
  simp [listWF]

theorem listWF_getD {V : Type} (l : List (Node V)) (i : Nat)
    (h : listWF l = true) : nodeWF (l.getD i Node.empty) = true := by
  induction l generalizing i with
  | nil =>
    cases i <;> simp [List.getD, nodeWF, Node.empty]
  | cons a rest ih =>
    rw [listWF_cons] at h
    simp only [Bool.and_eq_true] at h
    cases i with
    | zero => exact h.1
    | succ j => simpa using ih j h.2

theorem listWF_set {V : Type} (l : List (Node V)) (i : Nat) (c : Node V)
    (hc : nodeWF c = true) (h : listWF l = true) : listWF (l.set i c) = true := by
  induction l generalizing i with
  | nil => simpa [List.set] using h
  | cons a rest ih =>
    rw [listWF_cons] at h
    simp only [Bool.and_eq_true] at h
    cases i with
    | zero => rw [List.set, listWF_cons]; simp [hc, h.2]
    | succ j => rw [List.set, listWF_cons]; simp [h.1, ih j h.2]

theorem nodeWF_empty {V : Type} : nodeWF (Node.empty : Node V) = true := by
  simp [nodeWF, Node.empty]

theorem listTotal_replicate {V : Type} (n : Nat) :
    listTotal (List.replicate n (Node.empty : Node V)) = 0 := by
  induction n with
  | zero => simp [listTotal]
  | succ k ih =>
    rw [List.replicate, listTotal_cons, ih]
    simp [Node.cnt, Node.empty, Node.total]

theorem listWF_replicate {V : Type} (n : Nat) :
    listWF (List.replicate n (Node.empty : Node V)) = true := by
  induction n with
  | zero => simp [listWF]
  | succ k ih =>
    rw [List.replicate, listWF_cons]
    simp [nodeWF_empty, ih]

theorem imapWF_new {V : Type} : imapWF (imap_new : Imap V) = true := by
  simp only [imapWF, imap_new, List.length_replicate, listTotal_replicate,
    listWF_replicate]
  rfl

/-- Mutual structural induction over nodes and slot arrays, packaged through
a strong induction on `sizeOf`. -/
theorem nodeListInd {V : Type} (P : Node V → Prop) (Q : List (Node V) → Prop)
    (hnil : Q [])
    (hcons : ∀ c cs, P c → Q cs → Q (c :: cs))
    (hmk : ∀ d s cso, (∀ l, cso = some l → Q l) → P (Node.mk d s cso)) :
    (∀ c, P c) ∧ (∀ l, Q l) := by
  have main : ∀ n : Nat, (∀ c : Node V, sizeOf c ≤ n → P c) ∧
      (∀ l : List (Node V), sizeOf l ≤ n → Q l) := by
    intro n
    induction n with
    | zero =>
      constructor
      · intro c hc
        cases c with
        | mk d s cso => simp at hc
      · intro l hl
        cases l with
        | nil => exact hnil
        | cons c cs => simp at hl
    | succ k ih =>
      constructor
      · intro c hc
        cases c with
        | mk d s cso =>
          apply hmk
          intro l hl
          apply ih.2
          subst hl
          simp at hc
          omega
      · intro l hl
        cases l with
        | nil => exact hnil
        | cons c cs =>
          simp at hl
          exact hcons c cs (ih.1 c (by omega)) (ih.2 cs (by omega))
  constructor
  · intro c; exact (main (sizeOf c)).1 c (Nat.le_refl _)
  · intro l; exact (main (sizeOf l)).2 l (Nat.le_refl _)

/-! ### Well-formedness destructors -/

theorem nodeWF_none {V : Type} (d : Option V) (s : Nat)
    (h : nodeWF (Node.mk d s (none : Option (List (Node V)))) = true) : s = 0 := by
  simp [nodeWF] at h
  exact h

theorem nodeWF_some {V : Type} (d : Option V) (s : Nat) (l : List (Node V))
    (h : nodeWF (Node.mk d s (some l)) = true) :
    l.length = 32 ∧ s = listTotal l ∧ s ≠ 0 ∧ listWF l = true := by
  simp [nodeWF] at h
  exact ⟨h.1.1.1, h.1.1.2, h.1.2, h.2⟩

theorem nodeWF_mk_none {V : Type} (d : Option V) :
    nodeWF (Node.mk d 0 (none : Option (List (Node V)))) = true := by
  simp [nodeWF]

theorem nodeWF_mk_some {V : Type} (d : Option V) (s : Nat) (l : List (Node V))
    (h1 : l.length = 32) (h2 : s = listTotal l) (h3 : s ≠ 0)
    (h4 : listWF l = true) : nodeWF (Node.mk d s (some l)) = true := by
  simp [nodeWF]
  exact ⟨⟨⟨h1, h2⟩, h3⟩, h4⟩

theorem nodeWF_data_irrel {V : Type} (d1 d2 : Option V) (s : Nat)
    (cs : Option (List (Node V))) :
    nodeWF (Node.mk d1 s cs) = nodeWF (Node.mk d2 s cs) := by
  cases cs <;> simp [nodeWF]

theorem nodeWF_size_zero {V : Type} (nd : Node V) (h : nodeWF nd = true)
    (hs : nd.size = 0) : nd.children = none := by
  cases nd with
  | mk d s cs =>
    cases cs with
    | none => rfl
    | some l =>
      have := nodeWF_some d s l h
      simp at hs
      exact absurd hs this.2.2.1

theorem nodeWF_size_pos {V : Type} (nd : Node V) (h : nodeWF nd = true)
    (hs : nd.size ≠ 0) :
    ∃ l, nd.children = some l ∧ l.length = 32 ∧ nd.size = listTotal l ∧
      listWF l = true := by
  cases nd with
  | mk d s cs =>
    cases cs with
    | none =>
      have := nodeWF_none d s h
      simp at hs
      exact absurd this hs
    | some l =>
      have := nodeWF_some d s l h
      exact ⟨l, rfl, this.1, by simpa using this.2.1, this.2.2.2⟩

theorem total_none {V : Type} (d : Option V) (s : Nat) :
    (Node.mk d s (none : Option (List (Node V)))).total = 0 := by
  simp [Node.total]

theorem total_some {V : Type} (d : Option V) (s : Nat) (l : List (Node V)) :
    (Node.mk d s (some l)).total = listTotal l := by
  simp [Node.total]

theorem total_eq_size {V : Type} (nd : Node V) (h : nodeWF nd = true) :
    nd.total = nd.size := by
  cases nd with
  | mk d s cs =>
    cases cs with
    | none =>
      have := nodeWF_none d s h
      simp [total_none, this]
    | some l =>
      have := nodeWF_some d s l h
      simp [total_some]
      exact this.2.1.symm

theorem cnt_mk {V : Type} (d : Option V) (s : Nat)
    (cs : Option (List (Node V))) :
    (Node.mk d s cs).cnt = (if d.isSome then 1 else 0) + (Node.mk d s cs).total := by
  simp [Node.cnt]

theorem cnt_of_WF {V : Type} (nd : Node V) (h : nodeWF nd = true) :
    nd.cnt = (if nd.data.isSome then 1 else 0) + nd.size := by
  rw [Node.cnt, total_eq_size nd h]

/-! ### Basic `IMAP_get` facts -/

theorem getD_nil_empty {V : Type} (i : Nat) :
    ([] : List (Node V)).getD i Node.empty = Node.empty := by
  cases i <;> rfl

theorem IMAP_get_children_none {V : Type} (nd : Node V) (id : Nat)
    (hc : nd.children = none) : IMAP_get nd id = none := by
  rw [IMAP_get, hc]
  show (if id / 32 = 0 then (([] : List (Node V)).getD (id % 32) Node.empty).data
    else if (([] : List (Node V)).getD (id % 32) Node.empty).children.isNone then none
    else IMAP_get (([] : List (Node V)).getD (id % 32) Node.empty) (id / 32 - 1)) = none
  rw [getD_nil_empty]
  by_cases h : id / 32 = 0
  · simp [h, Node.empty]
  · simp [h, Node.empty]

theorem IMAP_get_size_zero {V : Type} (nd : Node V) (id : Nat)
    (h : nodeWF nd = true) (hs : nd.size = 0) : IMAP_get nd id = none :=
  IMAP_get_children_none nd id (nodeWF_size_zero nd h hs)

theorem IMAP_get_some_children {V : Type} (nd : Node V) (id : Nat)
    (h : (IMAP_get nd id).isSome) : ∃ l, nd.children = some l := by
  cases hc : nd.children with
  | none => rw [IMAP_get_children_none nd id hc] at h; simp at h
  | some l => exact ⟨l, rfl⟩

/-- `IMAP_get` on a node with a present children array, written as a plain
conditional on the selected slot. -/
theorem IMAP_get_some_eq {V : Type} (d : Option V) (s : Nat) (l : List (Node V))
    (id : Nat) :
    IMAP_get (Node.mk d s (some l)) id =
      (if id / 32 = 0 then (l.getD (id % 32) Node.empty).data
       else if (l.getD (id % 32) Node.empty).children.isNone then none
       else IMAP_get (l.getD (id % 32) Node.empty) (id / 32 - 1)) := by
  rw [IMAP_get]
  rfl

@[simp] theorem Node.data_empty {V : Type} : (Node.empty : Node V).data = none := rfl

@[simp] theorem Node.size_empty {V : Type} : (Node.empty : Node V).size = 0 := rfl

@[simp] theorem Node.children_empty {V : Type} :
    (Node.empty : Node V).children = none := rfl

theorem cnt_empty {V : Type} : (Node.empty : Node V).cnt = 0 := by
  simp [Node.cnt, Node.empty, Node.total]

theorem total_children_only {V : Type} (d1 d2 : Option V) (s1 s2 : Nat)
    (cs : Option (List (Node V))) :
    (Node.mk d1 s1 cs).total = (Node.mk d2 s2 cs).total := by
  cases cs <;> simp [Node.total]

theorem IMAP_get_data_irrel {V : Type} (d1 d2 : Option V) (s1 s2 : Nat)
    (cs : Option (List (Node V))) (x : Nat) :
    IMAP_get (Node.mk d1 s1 cs) x = IMAP_get (Node.mk d2 s2 cs) x := by
  cases cs with
  | none =>
    rw [IMAP_get_children_none (Node.mk d1 s1 none) x rfl,
      IMAP_get_children_none (Node.mk d2 s2 none) x rfl]
  | some l =>
    rw [IMAP_get_some_eq, IMAP_get_some_eq]

theorem step_get {V : Type} (c : Node V) (x : Nat) :
    (if c.children.isNone then none else IMAP_get c x) = IMAP_get c x := by
  cases hc : c.children with
  | none => simp [IMAP_get_children_none c x hc]
  | some l => simp

/-! ### Branch equations for `IMAP_add` -/

theorem IMAP_add_fail {V : Type} (al al1 : List Bool) (nd : Node V) (id : Nat)
    (v : V) (hs : nd.size = 0) (hb : allocNext al = (false, al1)) :
    IMAP_add al nd id v = (al1, Node.mk nd.data nd.size none, -1) := by
  rw [IMAP_add, if_pos hs, hb]
  rfl

theorem IMAP_add_fresh_leaf {V : Type} (al al1 : List Bool) (nd : Node V)
    (id : Nat) (v : V) (hs : nd.size = 0) (hb : allocNext al = (true, al1))
    (hq : id / 32 = 0) :
    IMAP_add al nd id v =
      (al1,
       Node.mk nd.data (nd.size + 1)
         (some ((List.replicate 32 Node.empty).set (id % 32)
           (Node.mk (some v) 0 none))),
       1) := by
  rw [IMAP_add, if_pos hs, if_pos hs, hb]
  simp only []
  rw [getD_replicate 32 (id % 32) Node.empty Node.empty (by omega), dif_pos hq]
  rfl

theorem IMAP_add_fresh_deep {V : Type} (al al1 : List Bool) (nd : Node V)
    (id : Nat) (v : V) (hs : nd.size = 0) (hb : allocNext al = (true, al1))
    (hq : id / 32 ≠ 0) :
    IMAP_add al nd id v =
      ((IMAP_add al1 (Node.empty : Node V) (id / 32 - 1) v).1,
       Node.mk nd.data
         (if 0 < (IMAP_add al1 (Node.empty : Node V) (id / 32 - 1) v).2.2
          then nd.size + 1 else nd.size)
         (some ((List.replicate 32 Node.empty).set (id % 32)
           (IMAP_add al1 (Node.empty : Node V) (id / 32 - 1) v).2.1)),
       (IMAP_add al1 (Node.empty : Node V) (id / 32 - 1) v).2.2) := by
  rw [IMAP_add, if_pos hs, if_pos hs, hb]
  simp only []
  rw [getD_replicate 32 (id % 32) Node.empty Node.empty (by omega), dif_neg hq]
  rfl

theorem IMAP_add_old_leaf {V : Type} (al : List Bool) (nd : Node V)
    (id : Nat) (v : V) (hs : nd.size ≠ 0) (hq : id / 32 = 0) :
    IMAP_add al nd id v =
      (al,
       Node.mk nd.data
         (if ((nd.children.getD []).getD (id % 32) Node.empty).data.isSome
          then nd.size else nd.size + 1)
         (some ((nd.children.getD []).set (id % 32)
           (Node.mk (some v)
             ((nd.children.getD []).getD (id % 32) Node.empty).size
             ((nd.children.getD []).getD (id % 32) Node.empty).children))),
       if ((nd.children.getD []).getD (id % 32) Node.empty).data.isSome
       then 0 else 1) := by
  rw [IMAP_add, if_neg hs, if_neg hs]
  simp only []
  rw [dif_pos hq]
  rfl

theorem IMAP_add_old_deep {V : Type} (al : List Bool) (nd : Node V)
    (id : Nat) (v : V) (hs : nd.size ≠ 0) (hq : id / 32 ≠ 0) :
    IMAP_add al nd id v =
      ((IMAP_add al ((nd.children.getD []).getD (id % 32) Node.empty)
          (id / 32 - 1) v).1,
       Node.mk nd.data
         (if 0 < (IMAP_add al ((nd.children.getD []).getD (id % 32) Node.empty)
            (id / 32 - 1) v).2.2
          then nd.size + 1 else nd.size)
         (some ((nd.children.getD []).set (id % 32)
           (IMAP_add al ((nd.children.getD []).getD (id % 32) Node.empty)
             (id / 32 - 1) v).2.1)),
       (IMAP_add al ((nd.children.getD []).getD (id % 32) Node.empty)
         (id / 32 - 1) v).2.2) := by
  rw [IMAP_add, if_neg hs, if_neg hs]
  simp only []
  rw [dif_neg hq]
  rfl

/-! ### Branch equations for `IMAP_pop` -/

theorem IMAP_pop_leaf_none {V : Type} (nd : Node V) (id : Nat)
    (hq : id / 32 = 0)
    (hd : ((nd.children.getD []).getD (id % 32) Node.empty).data = none) :
    IMAP_pop nd id = (nd, none) := by
  rw [IMAP_pop]
  simp only []
  rw [dif_pos hq, hd]

theorem IMAP_pop_leaf_free {V : Type} (nd : Node V) (id : Nat) (v : V)
    (hq : id / 32 = 0)
    (hd : ((nd.children.getD []).getD (id % 32) Node.empty).data = some v)
    (hsz : nd.size - 1 = 0) :
    IMAP_pop nd id = (Node.mk nd.data 0 none, some v) := by
  rw [IMAP_pop]
  simp only []
  rw [dif_pos hq, hd]
  simp only []
  rw [if_pos hsz]

theorem IMAP_pop_leaf_keep {V : Type} (nd : Node V) (id : Nat) (v : V)
    (hq : id / 32 = 0)
    (hd : ((nd.children.getD []).getD (id % 32) Node.empty).data = some v)
    (hsz : nd.size - 1 ≠ 0) :
    IMAP_pop nd id =
      (Node.mk nd.data (nd.size - 1)
        (some ((nd.children.getD []).set (id % 32)
          (Node.mk none
            ((nd.children.getD []).getD (id % 32) Node.empty).size
            ((nd.children.getD []).getD (id % 32) Node.empty).children))),
       some v) := by
  rw [IMAP_pop]
  simp only []
  rw [dif_pos hq, hd]
  simp only []
  rw [if_neg hsz]

theorem IMAP_pop_deep_none {V : Type} (nd : Node V) (id : Nat)
    (hq : id / 32 ≠ 0)
    (hcc : ((nd.children.getD []).getD (id % 32) Node.empty).children = none) :
    IMAP_pop nd id = (nd, none) := by
  rw [IMAP_pop]
  simp only []
  rw [dif_neg hq, hcc]
  rfl

theorem IMAP_pop_deep_miss {V : Type} (nd : Node V) (id : Nat)
    (l2 : List (Node V)) (hq : id / 32 ≠ 0)
    (hcc : ((nd.children.getD []).getD (id % 32) Node.empty).children = some l2)
    (hr : (IMAP_pop ((nd.children.getD []).getD (id % 32) Node.empty)
      (id / 32 - 1)).2 = none) :
    IMAP_pop nd id = (nd, none) := by
  rw [IMAP_pop]
  simp only []
  rw [dif_neg hq, hcc]
  simp only [Option.isNone_some, Bool.false_eq_true, if_neg, ite_false]
  rw [hr]

theorem IMAP_pop_deep_free {V : Type} (nd : Node V) (id : Nat) (v : V)
    (l2 : List (Node V)) (hq : id / 32 ≠ 0)
    (hcc : ((nd.children.getD []).getD (id % 32) Node.empty).children = some l2)
    (hr : (IMAP_pop ((nd.children.getD []).getD (id % 32) Node.empty)
      (id / 32 - 1)).2 = some v)
    (hsz : nd.size - 1 = 0) :
    IMAP_pop nd id = (Node.mk nd.data 0 none, some v) := by
  rw [IMAP_pop]
  simp only []
  rw [dif_neg hq, hcc]
  simp only [Option.isNone_some, Bool.false_eq_true, if_neg, ite_false]
  rw [hr]
  simp only []
  rw [if_pos hsz]

theorem IMAP_pop_deep_keep {V : Type} (nd : Node V) (id : Nat) (v : V)
    (l2 : List (Node V)) (hq : id / 32 ≠ 0)
    (hcc : ((nd.children.getD []).getD (id % 32) Node.empty).children = some l2)
    (hr : (IMAP_pop ((nd.children.getD []).getD (id % 32) Node.empty)
      (id / 32 - 1)).2 = some v)
    (hsz : nd.size - 1 ≠ 0) :
    IMAP_pop nd id =
      (Node.mk nd.data (nd.size - 1)
        (some ((nd.children.getD []).set (id % 32)
          (IMAP_pop ((nd.children.getD []).getD (id % 32) Node.empty)
            (id / 32 - 1)).1)),
       some v) := by
  rw [IMAP_pop]
  simp only []
  rw [dif_neg hq, hcc]
  simp only [Option.isNone_some, Bool.false_eq_true, if_neg, ite_false]
  rw [hr]
  simp only []
  rw [if_neg hsz]

theorem nodeWF_children_some_size {V : Type} (c : Node V) (l2 : List (Node V))
    (h : nodeWF c = true) (hc : c.children = some l2) : c.size ≠ 0 := by
  intro hz
  have := nodeWF_size_zero c h hz
  rw [hc] at this
  exact Option.noConfusion this

/-! ### Correctness of `IMAP_add` -/

/-- `IMAP_add` on a well-formed node, when it does not fail: preserves
well-formedness and the node's own value, reports 1 exactly when the key was
absent (incrementing `size` accordingly), makes the key map to the new value,
and leaves every other key untouched. -/
theorem IMAP_add_ok {V : Type} (id : Nat) :
    ∀ (al : List Bool) (nd : Node V) (v : V),
    nodeWF nd = true →
    (IMAP_add al nd id v).2.2 ≠ -1 →
    nodeWF (IMAP_add al nd id v).2.1 = true ∧
    (IMAP_add al nd id v).2.1.data = nd.data ∧
    (IMAP_add al nd id v).2.2 = (if (IMAP_get nd id).isSome then 0 else 1) ∧
    (IMAP_add al nd id v).2.1.size
      = nd.size + (if (IMAP_get nd id).isSome then 0 else 1) ∧
    IMAP_get (IMAP_add al nd id v).2.1 id = some v ∧
    (∀ j, j ≠ id → IMAP_get (IMAP_add al nd id v).2.1 j = IMAP_get nd j) := by
  induction id using Nat.strong_induction_on with
  | _ id IH =>
  intro al nd v hwf hrc
  cases nd with
  | mk d0 s0 cs0 =>
  have hi32 : id % 32 < 32 := by omega
  by_cases hs : s0 = 0
  · -- the subtree is empty: a fresh children array is allocated
    have hs' : (Node.mk d0 s0 cs0).size = 0 := by simpa using hs
    have hcn : cs0 = none := by
      have := nodeWF_size_zero (Node.mk d0 s0 cs0) hwf hs'
      simpa using this
    subst hcn
    subst hs
    have hget0 : ∀ x, IMAP_get (Node.mk d0 0 (none : Option (List (Node V)))) x
        = none := fun x => IMAP_get_children_none _ x rfl
    rcases hb : allocNext al with ⟨b, al1⟩
    cases b with
    | false =>
      rw [IMAP_add_fail al al1 _ id v hs' hb] at hrc
      simp at hrc
    | true =>
      by_cases hq : id / 32 = 0
      · rw [IMAP_add_fresh_leaf al al1 _ id v hs' hb hq]
        simp only [Node.size_mk, Node.data_mk]
        have hlenr : (List.replicate 32 (Node.empty : Node V)).length = 32 :=
          List.length_replicate 32 _
        have hsetbd : id % 32 < (List.replicate 32 (Node.empty : Node V)).length := by
          omega
        have hcnt1 : (Node.mk (some v) 0 (none : Option (List (Node V)))).cnt = 1 := by
          simp [Node.cnt, Node.total]
        have hlt : listTotal ((List.replicate 32 (Node.empty : Node V)).set (id % 32)
            (Node.mk (some v) 0 none)) = 1 := by
          have := listTotal_set (List.replicate 32 (Node.empty : Node V)) (id % 32)
            (Node.mk (some v) 0 none) hsetbd
          rw [getD_replicate 32 (id % 32) _ _ hi32, cnt_empty, listTotal_replicate,
            hcnt1] at this
          omega
        refine ⟨?_, trivial, by simp [hget0], by simp [hget0], ?_, ?_⟩
        · apply nodeWF_mk_some
          · rw [List.length_set, hlenr]
          · rw [hlt]
          · omega
          · exact listWF_set _ _ _ (nodeWF_mk_none (some v)) (listWF_replicate 32)
        · rw [IMAP_get_some_eq, if_pos hq, getD_set_self _ _ _ _ hsetbd]
          simp
        · intro j hj
          rw [IMAP_get_some_eq, hget0 j]
          by_cases hij : j % 32 = id % 32
          · have hqj : j / 32 ≠ 0 := by omega
            rw [if_neg hqj, hij, getD_set_self _ _ _ _ hsetbd]
            simp
          · rw [getD_set_ne _ _ _ _ _ (fun h => hij h.symm),
              getD_replicate 32 (j % 32) _ _ (by omega)]
            by_cases hqj : j / 32 = 0 <;> simp [hqj]
      · rw [IMAP_add_fresh_deep al al1 _ id v hs' hb hq] at hrc ⊢
        simp only [] at hrc
        simp only [Node.size_mk, Node.data_mk]
        have hrec := IH (id / 32 - 1) (by omega) al1 Node.empty v nodeWF_empty hrc
        obtain ⟨hwf2, hdat2, hrc2, hsz2, hget2, hpres2⟩ := hrec
        have hgetem : ∀ x, IMAP_get (Node.empty : Node V) x = none := fun x =>
          IMAP_get_children_none _ x rfl
        rw [hgetem] at hrc2 hsz2
        simp only [Option.isSome_none, Bool.false_eq_true, if_false] at hrc2 hsz2
        set nd2 := (IMAP_add al1 (Node.empty : Node V) (id / 32 - 1) v).2.1 with hnd2
        rw [hrc2]
        rw [if_pos (by norm_num : (0 : Int) < 1)]
        have hlenr : (List.replicate 32 (Node.empty : Node V)).length = 32 :=
          List.length_replicate 32 _
        have hsetbd : id % 32 < (List.replicate 32 (Node.empty : Node V)).length := by
          omega
        have hsz2v : nd2.size = 1 := by simpa using hsz2
        have hcnt2 : nd2.cnt = 1 := by
          rw [cnt_of_WF nd2 hwf2, hdat2, hsz2v]
          simp
        have hlt : listTotal ((List.replicate 32 (Node.empty : Node V)).set (id % 32)
            nd2) = 1 := by
          have := listTotal_set (List.replicate 32 (Node.empty : Node V)) (id % 32)
            nd2 hsetbd
          rw [getD_replicate 32 (id % 32) _ _ hi32, cnt_empty, listTotal_replicate,
            hcnt2] at this
          omega
        refine ⟨?_, trivial, by simp [hget0], by simp [hget0], ?_, ?_⟩
        · apply nodeWF_mk_some
          · rw [List.length_set, hlenr]
          · rw [hlt]
          · omega
          · exact listWF_set _ _ _ hwf2 (listWF_replicate 32)
        · rw [IMAP_get_some_eq, if_neg hq, getD_set_self _ _ _ _ hsetbd, step_get]
          exact hget2
        · intro j hj
          rw [IMAP_get_some_eq, hget0 j]
          by_cases hij : j % 32 = id % 32
          · rw [hij, getD_set_self _ _ _ _ hsetbd]
            by_cases hqj : j / 32 = 0
            · rw [if_pos hqj, hdat2]
              rfl
            · rw [if_neg hqj, step_get, hpres2 (j / 32 - 1) (by omega), hgetem]
          · rw [getD_set_ne _ _ _ _ _ (fun h => hij h.symm),
              getD_replicate 32 (j % 32) _ _ (by omega)]
            by_cases hqj : j / 32 = 0 <;> simp [hqj]
  · -- the subtree already has a children array
    have hs' : (Node.mk d0 s0 cs0).size ≠ 0 := by simpa using hs
    obtain ⟨l, hcl, hlen, hsl, hlwf⟩ := nodeWF_size_pos (Node.mk d0 s0 cs0) hwf hs'
    simp only [Node.children_mk] at hcl
    subst hcl
    simp only [Node.size_mk] at hsl
    have hislt : id % 32 < l.length := by omega
    have hcwf : nodeWF (l.getD (id % 32) Node.empty) = true := listWF_getD l _ hlwf
    have hgd : (Node.mk d0 s0 (some l)).children.getD [] = l := rfl
    by_cases hq : id / 32 = 0
    · rw [IMAP_add_old_leaf al _ id v hs' hq]
      rw [hgd]
      simp only [Node.size_mk, Node.data_mk]
      set c := l.getD (id % 32) Node.empty with hc
      have hgetnd : IMAP_get (Node.mk d0 s0 (some l)) id = c.data := by
        rw [IMAP_get_some_eq, if_pos hq]
      have hwnew : nodeWF (Node.mk (some v) c.size c.children) = true := by
        rw [nodeWF_data_irrel (some v) c.data, Node.eta]
        exact hcwf
      have hcntnew : (Node.mk (some v) c.size c.children).cnt = 1 + c.total := by
        simp only [Node.cnt, Node.data_mk, Option.isSome_some, if_true]
        rw [total_children_only (some v) c.data c.size c.size, Node.eta]
      have hltset := listTotal_set l (id % 32) (Node.mk (some v) c.size c.children)
        hislt
      rw [hcntnew, ← hc] at hltset
      simp only [Node.cnt] at hltset
      refine ⟨?_, trivial, ?_, ?_, ?_, ?_⟩
      · apply nodeWF_mk_some
        · rw [List.length_set]; omega
        · by_cases hbv : c.data.isSome
          · rw [if_pos hbv]
            rw [if_pos hbv] at hltset
            omega
          · rw [if_neg hbv]
            rw [if_neg hbv] at hltset
            omega
        · by_cases hbv : c.data.isSome
          · rw [if_pos hbv]; omega
          · rw [if_neg hbv]; omega
        · exact listWF_set _ _ _ hwnew hlwf
      · rw [hgetnd]
      · rw [hgetnd]
        by_cases hbv : c.data.isSome
        · rw [if_pos hbv, if_pos hbv]
          omega
        · rw [if_neg hbv, if_neg hbv]
      · rw [IMAP_get_some_eq, if_pos hq, getD_set_self _ _ _ _ hislt]
        simp
      · intro j hj
        rw [IMAP_get_some_eq, IMAP_get_some_eq]
        by_cases hij : j % 32 = id % 32
        · have hqj : j / 32 ≠ 0 := by omega
          rw [if_neg hqj, if_neg hqj, hij, getD_set_self _ _ _ _ hislt, ← hc]
          simp only [Node.children_mk]
          rw [IMAP_get_data_irrel (some v) c.data c.size c.size, Node.eta]
        · rw [getD_set_ne _ _ _ _ _ (fun h => hij h.symm)]
    · rw [IMAP_add_old_deep al _ id v hs' hq] at hrc ⊢
      rw [hgd] at hrc ⊢
      simp only [] at hrc
      simp only [Node.size_mk, Node.data_mk]
      set c := l.getD (id % 32) Node.empty with hc
      have hrec := IH (id / 32 - 1) (by omega) al c v hcwf hrc
      obtain ⟨hwf2, hdat2, hrc2, hsz2, hget2, hpres2⟩ := hrec
      set nd2 := (IMAP_add al c (id / 32 - 1) v).2.1 with hnd2
      have hgetnd : IMAP_get (Node.mk d0 s0 (some l)) id
          = IMAP_get c (id / 32 - 1) := by
        rw [IMAP_get_some_eq, if_neg hq, ← hc, step_get]
      have hcntc : c.cnt = (if c.data.isSome then 1 else 0) + c.size :=
        cnt_of_WF c hcwf
      have hcnt2 : nd2.cnt = (if c.data.isSome then 1 else 0) + nd2.size := by
        rw [cnt_of_WF nd2 hwf2, hdat2]
      have hltset := listTotal_set l (id % 32) nd2 hislt
      rw [← hc, hcntc, hcnt2] at hltset
      rw [hrc2]
      by_cases hfound : (IMAP_get c (id / 32 - 1)).isSome
      · rw [if_pos hfound] at hsz2 ⊢
        rw [if_neg (by norm_num : ¬ ((0 : Int) < 0))]
        refine ⟨?_, trivial, ?_, ?_, ?_, ?_⟩
        · apply nodeWF_mk_some
          · rw [List.length_set]; omega
          · omega
          · omega
          · exact listWF_set _ _ _ hwf2 hlwf
        · rw [hgetnd, if_pos hfound]
        · rw [hgetnd, if_pos hfound]
          omega
        · rw [IMAP_get_some_eq, if_neg hq, getD_set_self _ _ _ _ hislt, step_get]
          exact hget2
        · intro j hj
          rw [IMAP_get_some_eq, IMAP_get_some_eq]
          by_cases hij : j % 32 = id % 32
          · rw [hij, getD_set_self _ _ _ _ hislt, ← hc]
            by_cases hqj : j / 32 = 0
            · rw [if_pos hqj, if_pos hqj, hdat2]
            · rw [if_neg hqj, if_neg hqj, step_get, step_get]
              exact hpres2 (j / 32 - 1) (by omega)
          · rw [getD_set_ne _ _ _ _ _ (fun h => hij h.symm)]
      · rw [if_neg hfound] at hsz2 ⊢
        rw [if_pos (by norm_num : (0 : Int) < 1)]
        refine ⟨?_, trivial, ?_, ?_, ?_, ?_⟩
        · apply nodeWF_mk_some
          · rw [List.length_set]; omega
          · omega
          · omega
          · exact listWF_set _ _ _ hwf2 hlwf
        · rw [hgetnd, if_neg hfound]
        · rw [hgetnd, if_neg hfound]
        · rw [IMAP_get_some_eq, if_neg hq, getD_set_self _ _ _ _ hislt, step_get]
          exact hget2
        · intro j hj
          rw [IMAP_get_some_eq, IMAP_get_some_eq]
          by_cases hij : j % 32 = id % 32
          · rw [hij, getD_set_self _ _ _ _ hislt, ← hc]
            by_cases hqj : j / 32 = 0
            · rw [if_pos hqj, if_pos hqj, hdat2]
            · rw [if_neg hqj, if_neg hqj, step_get, step_get]
              exact hpres2 (j / 32 - 1) (by omega)
          · rw [getD_set_ne _ _ _ _ _ (fun h => hij h.symm)]

/-! ### Counting entries from lookups -/

theorem get_slot_cnt {V : Type} (d : Option V) (s : Nat) (l : List (Node V))
    (x : Nat) (hlwf : listWF l = true)
    (h : (IMAP_get (Node.mk d s (some l)) x).isSome = true) :
    1 ≤ (l.getD (x % 32) Node.empty).cnt := by
  rw [IMAP_get_some_eq] at h
  by_cases hq : x / 32 = 0
  · rw [if_pos hq] at h
    simp only [Node.cnt, h, if_true]
    omega
  · rw [if_neg hq] at h
    cases hcc : (l.getD (x % 32) Node.empty).children with
    | none => rw [hcc] at h; simp at h
    | some l2 =>
      have hcwf := listWF_getD l (x % 32) hlwf
      have hsz := nodeWF_children_some_size _ l2 hcwf hcc
      have ht := total_eq_size _ hcwf
      simp only [Node.cnt]
      omega

theorem get_pairwise {V : Type} (id : Nat) :
    ∀ (j : Nat) (nd : Node V), nodeWF nd = true → id ≠ j →
    (IMAP_get nd id).isSome = true → (IMAP_get nd j).isSome = true →
    2 ≤ nd.size := by
  induction id using Nat.strong_induction_on with
  | _ id IH =>
  intro j nd hwf hne h1 h2
  obtain ⟨l, hcl⟩ := IMAP_get_some_children nd id h1
  cases nd with
  | mk d0 s0 cs0 =>
  simp only [Node.children_mk] at hcl
  subst hcl
  obtain ⟨hlen, hsl, hs0, hlwf⟩ := nodeWF_some d0 s0 l hwf
  by_cases hij : id % 32 = j % 32
  · have hcwf : nodeWF (l.getD (id % 32) Node.empty) = true := listWF_getD l _ hlwf
    have hcle : (l.getD (id % 32) Node.empty).cnt ≤ listTotal l :=
      cnt_getD_le l (id % 32) (by omega)
    rw [IMAP_get_some_eq] at h1 h2
    rw [← hij] at h2
    have key : 2 ≤ (l.getD (id % 32) Node.empty).cnt := by
      by_cases hq1 : id / 32 = 0
      · by_cases hq2 : j / 32 = 0
        · exact absurd (by omega : id = j) hne
        · rw [if_pos hq1] at h1
          rw [if_neg hq2] at h2
          cases hcc : (l.getD (id % 32) Node.empty).children with
          | none => rw [hcc] at h2; simp at h2
          | some l2 =>
            have hsz := nodeWF_children_some_size _ l2 hcwf hcc
            have ht := total_eq_size _ hcwf
            simp only [Node.cnt, h1, if_true]
            omega
      · by_cases hq2 : j / 32 = 0
        · rw [if_pos hq2] at h2
          rw [if_neg hq1] at h1
          cases hcc : (l.getD (id % 32) Node.empty).children with
          | none => rw [hcc] at h1; simp at h1
          | some l2 =>
            have hsz := nodeWF_children_some_size _ l2 hcwf hcc
            have ht := total_eq_size _ hcwf
            simp only [Node.cnt, h2, if_true]
            omega
        · rw [if_neg hq1] at h1
          rw [if_neg hq2] at h2
          cases hcc : (l.getD (id % 32) Node.empty).children with
          | none => rw [hcc] at h1; simp at h1
          | some l2 =>
            rw [hcc] at h1 h2
            simp only [Option.isNone_some, Bool.false_eq_true, if_false] at h1 h2
            have hrec := IH (id / 32 - 1) (by omega) (j / 32 - 1)
              (l.getD (id % 32) Node.empty) hcwf (by omega) h1 h2
            have ht := total_eq_size _ hcwf
            simp only [Node.cnt]
            omega
    simp only [Node.size_mk]
    omega
  · have k1 := get_slot_cnt d0 s0 l id hlwf h1
    have k2 := get_slot_cnt d0 s0 l j hlwf h2
    have hb := cnt_two_le l (id % 32) (j % 32) hij (by omega) (by omega)
    simp only [Node.size_mk]
    omega

theorem get_unique {V : Type} (nd : Node V) (id j : Nat)
    (hwf : nodeWF nd = true) (hs : nd.size = 1)
    (h1 : (IMAP_get nd id).isSome = true) (hne : j ≠ id) :
    IMAP_get nd j = none := by
  cases hgj : IMAP_get nd j with
  | none => rfl
  | some w =>
    have h2 : (IMAP_get nd j).isSome = true := by rw [hgj]; rfl
    have := get_pairwise id j nd hwf (fun h => hne h.symm) h1 h2
    omega

/-! ### Correctness of `IMAP_pop` -/

/-- `IMAP_pop` on a well-formed node: preserves well-formedness and the
node's own value, returns exactly the looked-up value, decrements `size`
exactly when a value was found, clears the key, leaves every other key
untouched, and leaves the node identical when nothing was found. -/
theorem IMAP_pop_ok {V : Type} (id : Nat) :
    ∀ (nd : Node V),
    nodeWF nd = true →
    nodeWF (IMAP_pop nd id).1 = true ∧
    (IMAP_pop nd id).1.data = nd.data ∧
    (IMAP_pop nd id).2 = IMAP_get nd id ∧
    (IMAP_pop nd id).1.size + (if (IMAP_get nd id).isSome then 1 else 0)
      = nd.size ∧
    IMAP_get (IMAP_pop nd id).1 id = none ∧
    (∀ j, j ≠ id → IMAP_get (IMAP_pop nd id).1 j = IMAP_get nd j) ∧
    ((IMAP_pop nd id).2 = none → (IMAP_pop nd id).1 = nd) := by
  induction id using Nat.strong_induction_on with
  | _ id IH =>
  intro nd hwf
  have hi32 : id % 32 < 32 := by omega
  cases nd with
  | mk d0 s0 cs0 =>
  cases cs0 with
  | none =>
    have hget0 : ∀ x, IMAP_get (Node.mk d0 s0 (none : Option (List (Node V)))) x
        = none := fun x => IMAP_get_children_none _ x rfl
    have hpop : IMAP_pop (Node.mk d0 s0 (none : Option (List (Node V)))) id
        = (Node.mk d0 s0 none, none) := by
      by_cases hq : id / 32 = 0
      · apply IMAP_pop_leaf_none _ id hq
        rw [show (Node.mk d0 s0 (none : Option (List (Node V)))).children.getD []
          = ([] : List (Node V)) from rfl, getD_nil_empty]
        rfl
      · apply IMAP_pop_deep_none _ id hq
        rw [show (Node.mk d0 s0 (none : Option (List (Node V)))).children.getD []
          = ([] : List (Node V)) from rfl, getD_nil_empty]
        rfl
    rw [hpop]
    refine ⟨hwf, rfl, (hget0 id).symm, by rw [hget0 id]; simp, hget0 id,
      fun j hj => rfl, fun h => rfl⟩
  | some l =>
    obtain ⟨hlen, hsl, hs0, hlwf⟩ := nodeWF_some d0 s0 l hwf
    have hislt : id % 32 < l.length := by omega
    have hcwf : nodeWF (l.getD (id % 32) Node.empty) = true := listWF_getD l _ hlwf
    have hgd : (Node.mk d0 s0 (some l)).children.getD [] = l := rfl
    have hszmk : (Node.mk d0 s0 (some l)).size = s0 := rfl
    by_cases hq : id / 32 = 0
    · cases hd : (l.getD (id % 32) Node.empty).data with
      | none =>
        have hpop := IMAP_pop_leaf_none (Node.mk d0 s0 (some l)) id hq
          (by rw [hgd]; exact hd)
        have hget : IMAP_get (Node.mk d0 s0 (some l)) id = none := by
          rw [IMAP_get_some_eq, if_pos hq, hd]
        rw [hpop, hget]
        refine ⟨hwf, rfl, rfl, by simp, rfl, fun j hj => rfl, fun h => rfl⟩
      | some v =>
        have hget : IMAP_get (Node.mk d0 s0 (some l)) id = some v := by
          rw [IMAP_get_some_eq, if_pos hq, hd]
        by_cases hsz : s0 - 1 = 0
        · have hpop := IMAP_pop_leaf_free (Node.mk d0 s0 (some l)) id v hq
            (by rw [hgd]; exact hd) (by rw [hszmk]; exact hsz)
          rw [hpop, hget]
          have hs1 : s0 = 1 := by omega
          refine ⟨nodeWF_mk_none d0, rfl, rfl, by simp [hs1], ?_, ?_, ?_⟩
          · exact IMAP_get_children_none (Node.mk d0 0 none) id rfl
          · intro j hj
            show IMAP_get (Node.mk (Node.mk d0 s0 (some l)).data 0 none) j
              = IMAP_get (Node.mk d0 s0 (some l)) j
            rw [IMAP_get_children_none
              (Node.mk (Node.mk d0 s0 (some l)).data 0 none) j rfl]
            rw [get_unique (Node.mk d0 s0 (some l)) id j hwf (by simpa using hs1)
              (by rw [hget]; rfl) hj]
          · intro h
            exact absurd h (by simp)
        · have hpop := IMAP_pop_leaf_keep (Node.mk d0 s0 (some l)) id v hq
            (by rw [hgd]; exact hd) (by rw [hszmk]; exact hsz)
          rw [hpop, hget]
          rw [hgd] at hpop ⊢
          have hwnew : nodeWF (Node.mk none
              (l.getD (id % 32) Node.empty).size
              (l.getD (id % 32) Node.empty).children) = true := by
            rw [nodeWF_data_irrel none (l.getD (id % 32) Node.empty).data, Node.eta]
            exact hcwf
          have hcnew : (Node.mk none
              (l.getD (id % 32) Node.empty).size
              (l.getD (id % 32) Node.empty).children).cnt
              = (l.getD (id % 32) Node.empty).total := by
            simp only [Node.cnt, Node.data_mk, Option.isSome_none, Bool.false_eq_true,
              if_false]
            rw [total_children_only none (l.getD (id % 32) Node.empty).data
              _ (l.getD (id % 32) Node.empty).size, Node.eta]
            omega
          have hcold : (l.getD (id % 32) Node.empty).cnt
              = 1 + (l.getD (id % 32) Node.empty).total := by
            simp only [Node.cnt, hd, Option.isSome_some, if_true]
          have hltset := listTotal_set l (id % 32) (Node.mk none
            (l.getD (id % 32) Node.empty).size
            (l.getD (id % 32) Node.empty).children) hislt
          rw [hcnew, hcold] at hltset
          refine ⟨?_, rfl, rfl, by simp; omega, ?_, ?_, ?_⟩
          · apply nodeWF_mk_some
            · rw [List.length_set]; omega
            · omega
            · omega
            · exact listWF_set _ _ _ hwnew hlwf
          · rw [IMAP_get_some_eq, if_pos hq, getD_set_self _ _ _ _ hislt]
            rfl
          · intro j hj
            rw [IMAP_get_some_eq, IMAP_get_some_eq]
            by_cases hij : j % 32 = id % 32
            · have hqj : j / 32 ≠ 0 := by omega
              rw [if_neg hqj, if_neg hqj, hij, getD_set_self _ _ _ _ hislt]
              simp only [Node.children_mk]
              rw [IMAP_get_data_irrel none (l.getD (id % 32) Node.empty).data
                _ (l.getD (id % 32) Node.empty).size, Node.eta]
            · rw [getD_set_ne _ _ _ _ _ (fun h => hij h.symm)]
          · intro h
            exact absurd h (by simp)
    · cases hcc : (l.getD (id % 32) Node.empty).children with
      | none =>
        have hpop := IMAP_pop_deep_none (Node.mk d0 s0 (some l)) id hq
          (by rw [hgd]; exact hcc)
        have hget : IMAP_get (Node.mk d0 s0 (some l)) id = none := by
          rw [IMAP_get_some_eq, if_neg hq, hcc]
          simp
        rw [hpop, hget]
        refine ⟨hwf, rfl, rfl, by simp, rfl, fun j hj => rfl, fun h => rfl⟩
      | some l2 =>
        have hrec := IH (id / 32 - 1) (by omega) (l.getD (id % 32) Node.empty) hcwf
        obtain ⟨hwf2, hdat2, hr2, hsz2, hget2, hpres2, hunch2⟩ := hrec
        have hget : IMAP_get (Node.mk d0 s0 (some l)) id
            = IMAP_get (l.getD (id % 32) Node.empty) (id / 32 - 1) := by
          rw [IMAP_get_some_eq, if_neg hq, step_get]
        cases hr : (IMAP_pop (l.getD (id % 32) Node.empty) (id / 32 - 1)).2 with
        | none =>
          have hpop := IMAP_pop_deep_miss (Node.mk d0 s0 (some l)) id l2 hq
            (by rw [hgd]; exact hcc) (by rw [hgd]; exact hr)
          have hgetn : IMAP_get (Node.mk d0 s0 (some l)) id = none := by
            rw [hget, ← hr2, hr]
          rw [hpop, hgetn]
          refine ⟨hwf, rfl, rfl, by simp, rfl, fun j hj => rfl, fun h => rfl⟩
        | some v =>
          have hgets : IMAP_get (Node.mk d0 s0 (some l)) id = some v := by
            rw [hget, ← hr2, hr]
          rw [hr] at hr2
          have hfound : (IMAP_get (l.getD (id % 32) Node.empty)
              (id / 32 - 1)).isSome = true := by rw [← hr2]; rfl
          rw [hfound, if_pos rfl] at hsz2
          by_cases hsz : s0 - 1 = 0
          · have hpop := IMAP_pop_deep_free (Node.mk d0 s0 (some l)) id v l2 hq
              (by rw [hgd]; exact hcc) (by rw [hgd]; exact hr)
              (by rw [hszmk]; exact hsz)
            rw [hpop, hgets]
            have hs1 : s0 = 1 := by omega
            refine ⟨nodeWF_mk_none d0, rfl, rfl, by simp [hs1], ?_, ?_, ?_⟩
            · exact IMAP_get_children_none (Node.mk d0 0 none) id rfl
            · intro j hj
              show IMAP_get (Node.mk (Node.mk d0 s0 (some l)).data 0 none) j
                = IMAP_get (Node.mk d0 s0 (some l)) j
              rw [IMAP_get_children_none
                (Node.mk (Node.mk d0 s0 (some l)).data 0 none) j rfl]
              rw [get_unique (Node.mk d0 s0 (some l)) id j hwf (by simpa using hs1)
                (by rw [hgets]; rfl) hj]
            · intro h
              exact absurd h (by simp)
          · have hpop := IMAP_pop_deep_keep (Node.mk d0 s0 (some l)) id v l2 hq
              (by rw [hgd]; exact hcc) (by rw [hgd]; exact hr)
              (by rw [hszmk]; exact hsz)
            rw [hpop, hgets]
            rw [hgd] at hpop ⊢
            have hcnew : (IMAP_pop (l.getD (id % 32) Node.empty) (id / 32 - 1)).1.cnt
                + 1 = (l.getD (id % 32) Node.empty).cnt := by
              rw [cnt_of_WF _ hwf2, cnt_of_WF _ hcwf, hdat2]
              omega
            have hltset := listTotal_set l (id % 32)
              (IMAP_pop (l.getD (id % 32) Node.empty) (id / 32 - 1)).1 hislt
            refine ⟨?_, rfl, rfl, by simp; omega, ?_, ?_, ?_⟩
            · apply nodeWF_mk_some
              · rw [List.length_set]; omega
              · omega
              · omega
              · exact listWF_set _ _ _ hwf2 hlwf
            · rw [IMAP_get_some_eq, if_neg hq, getD_set_self _ _ _ _ hislt, step_get]
              exact hget2
            · intro j hj
              rw [IMAP_get_some_eq, IMAP_get_some_eq]
              by_cases hij : j % 32 = id % 32
              · rw [hij, getD_set_self _ _ _ _ hislt]
                by_cases hqj : j / 32 = 0
                · rw [if_pos hqj, if_pos hqj, hdat2]
                · rw [if_neg hqj, if_neg hqj, step_get, step_get]
                  exact hpres2 (j / 32 - 1) (by omega)
              · rw [getD_set_ne _ _ _ _ _ (fun h => hij h.symm)]
            · intro h
              exact absurd h (by simp)

/-! ### Map-level branch equations and correctness -/

theorem imapWF_parts {V : Type} (m : Imap V) (h : imapWF m = true) :
    m.nodes.length = 32 ∧ m.len = listTotal m.nodes ∧ listWF m.nodes = true := by
  simp [imapWF] at h
  exact ⟨h.1.1, h.1.2, h.2⟩

theorem imapWF_mk {V : Type} (len : Nat) (nodes : List (Node V))
    (h1 : nodes.length = 32) (h2 : len = listTotal nodes)
    (h3 : listWF nodes = true) : imapWF ⟨len, nodes⟩ = true := by
  simp [imapWF]
  exact ⟨⟨h1, h2⟩, h3⟩

theorem imap_get_eq {V : Type} (m : Imap V) (id : Nat) :
    imap_get m id =
      (if id / 32 = 0 then (m.nodes.getD (id % 32) Node.empty).data
       else if (m.nodes.getD (id % 32) Node.empty).children.isNone then none
       else IMAP_get (m.nodes.getD (id % 32) Node.empty) (id / 32 - 1)) := by
  rw [imap_get]
  rfl

theorem imap_get_as_node {V : Type} (m : Imap V) (s : Nat) (id : Nat) :
    imap_get m id = IMAP_get (Node.mk none s (some m.nodes)) id := by
  rw [imap_get_eq, IMAP_get_some_eq]

theorem imap_add_leaf {V : Type} (al : List Bool) (m : Imap V) (id : Nat)
    (v : V) (hq : id / 32 = 0) :
    imap_add al m id v =
      (al,
       ⟨if (m.nodes.getD (id % 32) Node.empty).data.isSome
         then m.len else m.len + 1,
        m.nodes.set (id % 32) (Node.mk (some v)
          (m.nodes.getD (id % 32) Node.empty).size
          (m.nodes.getD (id % 32) Node.empty).children)⟩,
       0) := by
  rw [imap_add]
  simp only []
  rw [if_pos hq]

theorem imap_add_deep {V : Type} (al : List Bool) (m : Imap V) (id : Nat)
    (v : V) (hq : id / 32 ≠ 0) :
    imap_add al m id v =
      ((IMAP_add al (m.nodes.getD (id % 32) Node.empty) (id / 32 - 1) v).1,
       ⟨if 0 < (IMAP_add al (m.nodes.getD (id % 32) Node.empty)
           (id / 32 - 1) v).2.2
         then m.len + 1 else m.len,
        m.nodes.set (id % 32)
          (IMAP_add al (m.nodes.getD (id % 32) Node.empty) (id / 32 - 1) v).2.1⟩,
       (IMAP_add al (m.nodes.getD (id % 32) Node.empty) (id / 32 - 1) v).2.2) := by
  rw [imap_add]
  simp only []
  rw [if_neg hq]

theorem imap_pop_leaf_none {V : Type} (m : Imap V) (id : Nat)
    (hq : id / 32 = 0)
    (hd : (m.nodes.getD (id % 32) Node.empty).data = none) :
    imap_pop m id = (m, none) := by
  rw [imap_pop]
  simp only []
  rw [dif_pos hq, hd]

theorem imap_pop_leaf_some {V : Type} (m : Imap V) (id : Nat) (v : V)
    (hq : id / 32 = 0)
    (hd : (m.nodes.getD (id % 32) Node.empty).data = some v) :
    imap_pop m id =
      (⟨m.len - 1,
        m.nodes.set (id % 32) (Node.mk none
          (m.nodes.getD (id % 32) Node.empty).size
          (m.nodes.getD (id % 32) Node.empty).children)⟩,
       some v) := by
  rw [imap_pop]
  simp only []
  rw [dif_pos hq, hd]

theorem imap_pop_deep_nochildren {V : Type} (m : Imap V) (id : Nat)
    (hq : id / 32 ≠ 0)
    (hcc : (m.nodes.getD (id % 32) Node.empty).children = none) :
    imap_pop m id = (m, none) := by
  rw [imap_pop]
  simp only []
  rw [dif_neg hq, hcc]
  rfl

theorem imap_pop_deep_miss {V : Type} (m : Imap V) (id : Nat)
    (l2 : List (Node V)) (hq : id / 32 ≠ 0)
    (hcc : (m.nodes.getD (id % 32) Node.empty).children = some l2)
    (hr : (IMAP_pop (m.nodes.getD (id % 32) Node.empty) (id / 32 - 1)).2
      = none) :
    imap_pop m id = (m, none) := by
  rw [imap_pop]
  simp only []
  rw [dif_neg hq, hcc]
  simp only [Option.isNone_some, Bool.false_eq_true, if_neg, ite_false]
  rw [hr]

theorem imap_pop_deep_found {V : Type} (m : Imap V) (id : Nat) (v : V)
    (l2 : List (Node V)) (hq : id / 32 ≠ 0)
    (hcc : (m.nodes.getD (id % 32) Node.empty).children = some l2)
    (hr : (IMAP_pop (m.nodes.getD (id % 32) Node.empty) (id / 32 - 1)).2
      = some v) :
    imap_pop m id =
      (⟨m.len - 1,
        m.nodes.set (id % 32)
          (IMAP_pop (m.nodes.getD (id % 32) Node.empty) (id / 32 - 1)).1⟩,
       some v) := by
  rw [imap_pop]
  simp only []
  rw [dif_neg hq, hcc]
  simp only [Option.isNone_some, Bool.false_eq_true, if_neg, ite_false]
  rw [hr]

/-- `imap_add` on a well-formed map, when it does not fail: preserves
well-formedness, increments `len` exactly when the key was absent, makes the
key map to the new value, leaves other keys untouched - and returns 0
whenever the key fits in the top level (quotient zero), even for a fresh
insert; only deeper inserts report 1 for a new key. -/
theorem imap_add_ok {V : Type} (al : List Bool) (m : Imap V) (id : Nat) (v : V)
    (hwf : imapWF m = true) (hrc : (imap_add al m id v).2.2 ≠ -1) :
    imapWF (imap_add al m id v).2.1 = true ∧
    (imap_add al m id v).2.1.len
      = m.len + (if (imap_get m id).isSome then 0 else 1) ∧
    imap_get (imap_add al m id v).2.1 id = some v ∧
    (∀ j, j ≠ id → imap_get (imap_add al m id v).2.1 j = imap_get m j) ∧
    (imap_add al m id v).2.2
      = (if id / 32 = 0 then 0 else if (imap_get m id).isSome then 0 else 1) := by
  obtain ⟨hlen, hsl, hlwf⟩ := imapWF_parts m hwf
  have hi32 : id % 32 < 32 := by omega
  have hislt : id % 32 < m.nodes.length := by omega
  have hcwf : nodeWF (m.nodes.getD (id % 32) Node.empty) = true :=
    listWF_getD _ _ hlwf
  by_cases hq : id / 32 = 0
  · rw [imap_add_leaf al m id v hq]
    simp only []
    have hget : imap_get m id = (m.nodes.getD (id % 32) Node.empty).data := by
      rw [imap_get_eq, if_pos hq]
    have hwnew : nodeWF (Node.mk (some v)
        (m.nodes.getD (id % 32) Node.empty).size
        (m.nodes.getD (id % 32) Node.empty).children) = true := by
      rw [nodeWF_data_irrel (some v) (m.nodes.getD (id % 32) Node.empty).data,
        Node.eta]
      exact hcwf
    have hcntnew : (Node.mk (some v)
        (m.nodes.getD (id % 32) Node.empty).size
        (m.nodes.getD (id % 32) Node.empty).children).cnt
        = 1 + (m.nodes.getD (id % 32) Node.empty).total := by
      simp only [Node.cnt, Node.data_mk, Option.isSome_some, if_true]
      rw [total_children_only (some v) (m.nodes.getD (id % 32) Node.empty).data
        _ (m.nodes.getD (id % 32) Node.empty).size, Node.eta]
    have hltset := listTotal_set m.nodes (id % 32) (Node.mk (some v)
      (m.nodes.getD (id % 32) Node.empty).size
      (m.nodes.getD (id % 32) Node.empty).children) hislt
    rw [hcntnew] at hltset
    simp only [Node.cnt] at hltset
    refine ⟨?_, ?_, ?_, ?_, by rw [if_pos hq]⟩
    · apply imapWF_mk
      · rw [List.length_set]; omega
      · by_cases hbv : (m.nodes.getD (id % 32) Node.empty).data.isSome
        · rw [if_pos hbv]
          rw [if_pos hbv] at hltset
          omega
        · rw [if_neg hbv]
          rw [if_neg hbv] at hltset
          omega
      · exact listWF_set _ _ _ hwnew hlwf
    · rw [hget]
      by_cases hbv : (m.nodes.getD (id % 32) Node.empty).data.isSome
      · rw [if_pos hbv, if_pos hbv]
        omega
      · rw [if_neg hbv, if_neg hbv]
    · rw [imap_get_eq]
      simp only []
      rw [if_pos hq, getD_set_self _ _ _ _ hislt]
      rfl
    · intro j hj
      rw [imap_get_eq, imap_get_eq]
      simp only []
      by_cases hij : j % 32 = id % 32
      · have hqj : j / 32 ≠ 0 := by omega
        rw [if_neg hqj, if_neg hqj, hij, getD_set_self _ _ _ _ hislt]
        simp only [Node.children_mk]
        rw [IMAP_get_data_irrel (some v) (m.nodes.getD (id % 32) Node.empty).data
          _ (m.nodes.getD (id % 32) Node.empty).size, Node.eta]
      · rw [getD_set_ne _ _ _ _ _ (fun h => hij h.symm)]
  · rw [imap_add_deep al m id v hq] at hrc ⊢
    simp only [] at hrc ⊢
    have hrec := IMAP_add_ok (id / 32 - 1) al (m.nodes.getD (id % 32) Node.empty)
      v hcwf hrc
    obtain ⟨hwf2, hdat2, hrc2, hsz2, hget2, hpres2⟩ := hrec
    have hget : imap_get m id
        = IMAP_get (m.nodes.getD (id % 32) Node.empty) (id / 32 - 1) := by
      rw [imap_get_eq, if_neg hq, step_get]
    have hcntc : (m.nodes.getD (id % 32) Node.empty).cnt
        = (if (m.nodes.getD (id % 32) Node.empty).data.isSome then 1 else 0)
          + (m.nodes.getD (id % 32) Node.empty).size := cnt_of_WF _ hcwf
    have hcnt2 : (IMAP_add al (m.nodes.getD (id % 32) Node.empty)
        (id / 32 - 1) v).2.1.cnt
        = (if (m.nodes.getD (id % 32) Node.empty).data.isSome then 1 else 0)
          + (IMAP_add al (m.nodes.getD (id % 32) Node.empty)
            (id / 32 - 1) v).2.1.size := by
      rw [cnt_of_WF _ hwf2, hdat2]
    have hltset := listTotal_set m.nodes (id % 32)
      (IMAP_add al (m.nodes.getD (id % 32) Node.empty) (id / 32 - 1) v).2.1 hislt
    rw [hrc2]
    by_cases hfound : (IMAP_get (m.nodes.getD (id % 32) Node.empty)
        (id / 32 - 1)).isSome
    · rw [if_pos hfound] at hsz2 ⊢
      rw [if_neg (by norm_num : ¬ ((0 : Int) < 0))]
      refine ⟨?_, ?_, ?_, ?_, by rw [if_neg hq, hget, if_pos hfound]⟩
      · apply imapWF_mk
        · rw [List.length_set]; omega
        · omega
        · exact listWF_set _ _ _ hwf2 hlwf
      · rw [hget, if_pos hfound]
        omega
      · rw [imap_get_eq]
        simp only []
        rw [if_neg hq, getD_set_self _ _ _ _ hislt, step_get]
        exact hget2
      · intro j hj
        rw [imap_get_eq, imap_get_eq]
        simp only []
        by_cases hij : j % 32 = id % 32
        · rw [hij, getD_set_self _ _ _ _ hislt]
          by_cases hqj : j / 32 = 0
          · rw [if_pos hqj, if_pos hqj, hdat2]
          · rw [if_neg hqj, if_neg hqj, step_get, step_get]
            exact hpres2 (j / 32 - 1) (by omega)
        · rw [getD_set_ne _ _ _ _ _ (fun h => hij h.symm)]
    · rw [if_neg hfound] at hsz2 ⊢
      rw [if_pos (by norm_num : (0 : Int) < 1)]
      refine ⟨?_, ?_, ?_, ?_, by rw [if_neg hq, hget, if_neg hfound]⟩
      · apply imapWF_mk
        · rw [List.length_set]; omega
        · omega
        · exact listWF_set _ _ _ hwf2 hlwf
      · rw [hget, if_neg hfound]
      · rw [imap_get_eq]
        simp only []
        rw [if_neg hq, getD_set_self _ _ _ _ hislt, step_get]
        exact hget2
      · intro j hj
        rw [imap_get_eq, imap_get_eq]
        simp only []
        by_cases hij : j % 32 = id % 32
        · rw [hij, getD_set_self _ _ _ _ hislt]
          by_cases hqj : j / 32 = 0
          · rw [if_pos hqj, if_pos hqj, hdat2]
          · rw [if_neg hqj, if_neg hqj, step_get, step_get]
            exact hpres2 (j / 32 - 1) (by omega)
        · rw [getD_set_ne _ _ _ _ _ (fun h => hij h.symm)]

/-- `imap_pop` on a well-formed map: preserves well-formedness, returns the
looked-up value, decrements `len` exactly when a value was found, clears the
key, leaves other keys untouched, and leaves the map unchanged when the key
was absent. -/
theorem imap_pop_ok {V : Type} (m : Imap V) (id : Nat)
    (hwf : imapWF m = true) :
    imapWF (imap_pop m id).1 = true ∧
    (imap_pop m id).2 = imap_get m id ∧
    (imap_pop m id).1.len + (if (imap_get m id).isSome then 1 else 0)
      = m.len ∧
    imap_get (imap_pop m id).1 id = none ∧
    (∀ j, j ≠ id → imap_get (imap_pop m id).1 j = imap_get m j) ∧
    ((imap_pop m id).2 = none → (imap_pop m id).1 = m) := by
  obtain ⟨hlen, hsl, hlwf⟩ := imapWF_parts m hwf
  have hi32 : id % 32 < 32 := by omega
  have hislt : id % 32 < m.nodes.length := by omega
  have hcwf : nodeWF (m.nodes.getD (id % 32) Node.empty) = true :=
    listWF_getD _ _ hlwf
  have hlen1 : (imap_get m id).isSome = true → 1 ≤ m.len := by
    intro h
    rw [imap_get_as_node m 0] at h
    have h1 := get_slot_cnt none 0 m.nodes id hlwf h
    have h2 := cnt_getD_le m.nodes (id % 32) hislt
    omega
  by_cases hq : id / 32 = 0
  · cases hd : (m.nodes.getD (id % 32) Node.empty).data with
    | none =>
      have hget : imap_get m id = none := by
        rw [imap_get_eq, if_pos hq, hd]
      rw [imap_pop_leaf_none m id hq hd, hget]
      refine ⟨hwf, rfl, by simp, rfl, fun j hj => rfl, fun h => rfl⟩
    | some v =>
      have hget : imap_get m id = some v := by
        rw [imap_get_eq, if_pos hq, hd]
      rw [imap_pop_leaf_some m id v hq hd, hget]
      simp only []
      have hwnew : nodeWF (Node.mk none
          (m.nodes.getD (id % 32) Node.empty).size
          (m.nodes.getD (id % 32) Node.empty).children) = true := by
        rw [nodeWF_data_irrel none (m.nodes.getD (id % 32) Node.empty).data,
          Node.eta]
        exact hcwf
      have hcnew : (Node.mk none
          (m.nodes.getD (id % 32) Node.empty).size
          (m.nodes.getD (id % 32) Node.empty).children).cnt + 1
          = (m.nodes.getD (id % 32) Node.empty).cnt := by
        simp only [Node.cnt, Node.data_mk, Option.isSome_none, Bool.false_eq_true,
          if_false, hd, Option.isSome_some, if_true]
        rw [total_children_only none (m.nodes.getD (id % 32) Node.empty).data
          _ (m.nodes.getD (id % 32) Node.empty).size, Node.eta]
        omega
      have hltset := listTotal_set m.nodes (id % 32) (Node.mk none
        (m.nodes.getD (id % 32) Node.empty).size
        (m.nodes.getD (id % 32) Node.empty).children) hislt
      have hl1 : 1 ≤ m.len := hlen1 (by rw [hget]; rfl)
      refine ⟨?_, trivial, by simp; omega, ?_, ?_, ?_⟩
      · apply imapWF_mk
        · rw [List.length_set]; omega
        · omega
        · exact listWF_set _ _ _ hwnew hlwf
      · rw [imap_get_eq]
        simp only []
        rw [if_pos hq, getD_set_self _ _ _ _ hislt]
        rfl
      · intro j hj
        rw [imap_get_eq, imap_get_eq]
        simp only []
        by_cases hij : j % 32 = id % 32
        · have hqj : j / 32 ≠ 0 := by omega
          rw [if_neg hqj, if_neg hqj, hij, getD_set_self _ _ _ _ hislt]
          simp only [Node.children_mk]
          rw [IMAP_get_data_irrel none (m.nodes.getD (id % 32) Node.empty).data
            _ (m.nodes.getD (id % 32) Node.empty).size, Node.eta]
        · rw [getD_set_ne _ _ _ _ _ (fun h => hij h.symm)]
      · intro h
        exact absurd h (by simp)
  · cases hcc : (m.nodes.getD (id % 32) Node.empty).children with
    | none =>
      have hget : imap_get m id = none := by
        rw [imap_get_eq, if_neg hq, hcc]
        simp
      rw [imap_pop_deep_nochildren m id hq hcc, hget]
      refine ⟨hwf, rfl, by simp, rfl, fun j hj => rfl, fun h => rfl⟩
    | some l2 =>
      have hrec := IMAP_pop_ok (id / 32 - 1) (m.nodes.getD (id % 32) Node.empty)
        hcwf
      obtain ⟨hwf2, hdat2, hr2, hsz2, hget2, hpres2, hunch2⟩ := hrec
      have hget : imap_get m id
          = IMAP_get (m.nodes.getD (id % 32) Node.empty) (id / 32 - 1) := by
        rw [imap_get_eq, if_neg hq, step_get]
      cases hr : (IMAP_pop (m.nodes.getD (id % 32) Node.empty) (id / 32 - 1)).2 with
      | none =>
        have hgetn : imap_get m id = none := by
          rw [hget, ← hr2, hr]
        rw [imap_pop_deep_miss m id l2 hq hcc hr, hgetn]
        refine ⟨hwf, rfl, by simp, rfl, fun j hj => rfl, fun h => rfl⟩
      | some v =>
        have hgets : imap_get m id = some v := by
          rw [hget, ← hr2, hr]
        rw [hr] at hr2
        have hfound : (IMAP_get (m.nodes.getD (id % 32) Node.empty)
            (id / 32 - 1)).isSome = true := by rw [← hr2]; rfl
        rw [hfound, if_pos rfl] at hsz2
        rw [imap_pop_deep_found m id v l2 hq hcc hr, hgets]
        simp only []
        have hcnew : (IMAP_pop (m.nodes.getD (id % 32) Node.empty)
            (id / 32 - 1)).1.cnt + 1
            = (m.nodes.getD (id % 32) Node.empty).cnt := by
          rw [cnt_of_WF _ hwf2, cnt_of_WF _ hcwf, hdat2]
          omega
        have hltset := listTotal_set m.nodes (id % 32)
          (IMAP_pop (m.nodes.getD (id % 32) Node.empty) (id / 32 - 1)).1 hislt
        have hl1 : 1 ≤ m.len := hlen1 (by rw [hgets]; rfl)
        refine ⟨?_, trivial, by simp; omega, ?_, ?_, ?_⟩
        · apply imapWF_mk
          · rw [List.length_set]; omega
          · omega
          · exact listWF_set _ _ _ hwf2 hlwf
        · rw [imap_get_eq]
          simp only []
          rw [if_neg hq, getD_set_self _ _ _ _ hislt, step_get]
          exact hget2
        · intro j hj
          rw [imap_get_eq, imap_get_eq]
          simp only []
          by_cases hij : j % 32 = id % 32
          · rw [hij, getD_set_self _ _ _ _ hislt]
            by_cases hqj : j / 32 = 0
            · rw [if_pos hqj, if_pos hqj, hdat2]
            · rw [if_neg hqj, if_neg hqj, step_get, step_get]
              exact hpres2 (j / 32 - 1) (by omega)
          · rw [getD_set_ne _ _ _ _ _ (fun h => hij h.symm)]
        · intro h
          exact absurd h (by simp)

/-! ### Pop returns exactly the lookup, on any map -/

theorem IMAP_pop_result {V : Type} (id : Nat) :
    ∀ (nd : Node V), (IMAP_pop nd id).2 = IMAP_get nd id := by
  induction id using Nat.strong_induction_on with
  | _ id IH =>
  intro nd
  by_cases hq : id / 32 = 0
  · cases hd : ((nd.children.getD []).getD (id % 32) Node.empty).data with
    | none =>
      rw [IMAP_pop_leaf_none nd id hq hd, IMAP_get, dif_pos hq, hd]
    | some v =>
      by_cases hsz : nd.size - 1 = 0
      · rw [IMAP_pop_leaf_free nd id v hq hd hsz, IMAP_get, dif_pos hq, hd]
      · rw [IMAP_pop_leaf_keep nd id v hq hd hsz, IMAP_get, dif_pos hq, hd]
  · cases hcc : ((nd.children.getD []).getD (id % 32) Node.empty).children with
    | none =>
      rw [IMAP_pop_deep_none nd id hq hcc, IMAP_get, dif_neg hq, hcc]
      rfl
    | some l2 =>
      have hrec := IH (id / 32 - 1) (by omega)
        ((nd.children.getD []).getD (id % 32) Node.empty)
      cases hr : (IMAP_pop ((nd.children.getD []).getD (id % 32) Node.empty)
          (id / 32 - 1)).2 with
      | none =>
        rw [IMAP_pop_deep_miss nd id l2 hq hcc hr, IMAP_get, dif_neg hq, hcc]
        simp only [Option.isNone_some, Bool.false_eq_true, if_false]
        rw [← hrec, hr]
      | some v =>
        have heq : IMAP_get ((nd.children.getD []).getD (id % 32) Node.empty)
            (id / 32 - 1) = some v := by rw [← hrec, hr]
        by_cases hsz : nd.size - 1 = 0
        · rw [IMAP_pop_deep_free nd id v l2 hq hcc hr hsz, IMAP_get, dif_neg hq,
            hcc]
          simp only [Option.isNone_some, Bool.false_eq_true, if_false]
          rw [heq]
        · rw [IMAP_pop_deep_keep nd id v l2 hq hcc hr hsz, IMAP_get, dif_neg hq,
            hcc]
          simp only [Option.isNone_some, Bool.false_eq_true, if_false]
          rw [heq]

theorem imap_pop_result {V : Type} (m : Imap V) (id : Nat) :
    (imap_pop m id).2 = imap_get m id := by
  by_cases hq : id / 32 = 0
  · cases hd : (m.nodes.getD (id % 32) Node.empty).data with
    | none => rw [imap_pop_leaf_none m id hq hd, imap_get_eq, if_pos hq, hd]
    | some v => rw [imap_pop_leaf_some m id v hq hd, imap_get_eq, if_pos hq, hd]
  · cases hcc : (m.nodes.getD (id % 32) Node.empty).children with
    | none =>
      rw [imap_pop_deep_nochildren m id hq hcc, imap_get_eq, if_neg hq, hcc]
      rfl
    | some l2 =>
      have hrec := IMAP_pop_result (id / 32 - 1)
        (m.nodes.getD (id % 32) Node.empty)
      cases hr : (IMAP_pop (m.nodes.getD (id % 32) Node.empty)
          (id / 32 - 1)).2 with
      | none =>
        rw [imap_pop_deep_miss m id l2 hq hcc hr, imap_get_eq, if_neg hq, hcc]
        simp only [Option.isNone_some, Bool.false_eq_true, if_false]
        rw [← hrec, hr]
      | some v =>
        rw [imap_pop_deep_found m id v l2 hq hcc hr, imap_get_eq, if_neg hq, hcc]
        simp only [Option.isNone_some, Bool.false_eq_true, if_false]
        rw [← hrec, hr]

/-! ### Walk-order equations -/

theorem walkNode_unfold {V : Type} (d : Option V) (s : Nat)
    (cs : Option (List (Node V))) :
    IMAP_walkNode (Node.mk d s cs) =
      (match d with
       | some v => [v]
       | none => []) ++
      (match cs with
       | none => []
       | some l => IMAP_walkList l) := by
  rw [IMAP_walkNode.eq_def]

theorem walkList_nil {V : Type} : IMAP_walkList ([] : List (Node V)) = [] := by
  simp only [IMAP_walkList]

theorem walkList_cons {V : Type} (c : Node V) (rest : List (Node V)) :
    IMAP_walkList (c :: rest) = IMAP_walkNode c ++ IMAP_walkList rest := by
  simp only [IMAP_walkList]

theorem walkNode_empty {V : Type} : IMAP_walkNode (Node.empty : Node V) = [] := by
  rw [show (Node.empty : Node V) = Node.mk none 0 none from rfl, walkNode_unfold]
  rfl

theorem walkNode_data_only {V : Type} (c : Node V) :
    IMAP_walkNode c =
      (match c.data with
       | some v => [v]
       | none => []) ++
      (match c.children with
       | none => []
       | some l => IMAP_walkList l) := by
  cases c with
  | mk d s cs => rw [walkNode_unfold]; rfl

theorem walkList_set {V : Type} (l : List (Node V)) (i : Nat) (c : Node V)
    (hi : i < l.length)
    (h : IMAP_walkNode c = IMAP_walkNode (l.getD i Node.empty)) :
    IMAP_walkList (l.set i c) = IMAP_walkList l := by
  induction l generalizing i with
  | nil => simp at hi
  | cons a rest ih =>
    cases i with
    | zero =>
      rw [List.set, walkList_cons, walkList_cons]
      rw [show (a :: rest).getD 0 Node.empty = a from rfl] at h
      rw [h]
    | succ j =>
      rw [List.set, walkList_cons, walkList_cons]
      rw [show (a :: rest).getD (j + 1) Node.empty = rest.getD j Node.empty
        from rfl] at h
      rw [ih j (by simpa using hi) h]

theorem walkList_all_nil {V : Type} (l : List (Node V))
    (h : ∀ c ∈ l, IMAP_walkNode c = []) : IMAP_walkList l = [] := by
  induction l with
  | nil => exact walkList_nil
  | cons a rest ih =>
    rw [walkList_cons, h a (by simp), ih (fun c hc => h c (by simp [hc]))]
    rfl

/-! ### A failed `IMAP_add` leaves counts, lookups and the walk unchanged -/

theorem IMAP_add_fail_ok {V : Type} (id : Nat) :
    ∀ (al : List Bool) (nd : Node V) (v : V),
    nodeWF nd = true →
    (IMAP_add al nd id v).2.2 = -1 →
    (IMAP_add al nd id v).2.1.data = nd.data ∧
    (IMAP_add al nd id v).2.1.size = nd.size ∧
    (∀ j, IMAP_get (IMAP_add al nd id v).2.1 j = IMAP_get nd j) ∧
    IMAP_walkNode (IMAP_add al nd id v).2.1 = IMAP_walkNode nd := by
  induction id using Nat.strong_induction_on with
  | _ id IH =>
  intro al nd v hwf hrc
  cases nd with
  | mk d0 s0 cs0 =>
  have hi32 : id % 32 < 32 := by omega
  by_cases hs : s0 = 0
  · have hs' : (Node.mk d0 s0 cs0).size = 0 := by simpa using hs
    have hcn : cs0 = none := by
      have := nodeWF_size_zero (Node.mk d0 s0 cs0) hwf hs'
      simpa using this
    subst hcn
    subst hs
    rcases hb : allocNext al with ⟨b, al1⟩
    cases b with
    | false =>
      rw [IMAP_add_fail al al1 _ id v hs' hb]
      exact ⟨rfl, rfl, fun j => rfl, rfl⟩
    | true =>
      by_cases hq : id / 32 = 0
      · rw [IMAP_add_fresh_leaf al al1 _ id v hs' hb hq] at hrc
        simp at hrc
      · rw [IMAP_add_fresh_deep al al1 _ id v hs' hb hq] at hrc ⊢
        simp only [] at hrc
        simp only [Node.size_mk, Node.data_mk]
        have hrec := IH (id / 32 - 1) (by omega) al1 Node.empty v nodeWF_empty hrc
        obtain ⟨hdat2, hsz2, hget2, hwalk2⟩ := hrec
        have hgetem : ∀ x, IMAP_get (Node.empty : Node V) x = none := fun x =>
          IMAP_get_children_none _ x rfl
        have hget0 : ∀ x, IMAP_get (Node.mk d0 0 (none : Option (List (Node V)))) x
            = none := fun x => IMAP_get_children_none _ x rfl
        have hsetbd : id % 32 < (List.replicate 32 (Node.empty : Node V)).length := by
          rw [List.length_replicate]; omega
        rw [hrc]
        rw [if_neg (by norm_num : ¬ ((0 : Int) < -1))]
        refine ⟨by trivial, by trivial, ?_, ?_⟩
        · intro j
          rw [IMAP_get_some_eq, hget0 j]
          by_cases hij : j % 32 = id % 32
          · rw [hij, getD_set_self _ _ _ _ hsetbd]
            by_cases hqj : j / 32 = 0
            · rw [if_pos hqj, hdat2]
              rfl
            · rw [if_neg hqj, step_get, hget2 (j / 32 - 1), hgetem]
          · rw [getD_set_ne _ _ _ _ _ (fun h => hij h.symm),
              getD_replicate 32 (j % 32) _ _ (by omega)]
            by_cases hqj : j / 32 = 0 <;> simp [hqj]
        · rw [walkNode_unfold, walkNode_unfold]
          have hwl : IMAP_walkList ((List.replicate 32 (Node.empty : Node V)).set
              (id % 32) (IMAP_add al1 (Node.empty : Node V) (id / 32 - 1) v).2.1)
              = [] := by
            apply walkList_all_nil
            intro c hc
            rcases List.mem_or_eq_of_mem_set hc with hmem | heq
            · rw [List.eq_of_mem_replicate hmem, walkNode_empty]
            · rw [heq, hwalk2, walkNode_empty]
          simp only []
          rw [hwl]
  · have hs' : (Node.mk d0 s0 cs0).size ≠ 0 := by simpa using hs
    obtain ⟨l, hcl, hlen, hsl, hlwf⟩ := nodeWF_size_pos (Node.mk d0 s0 cs0) hwf hs'
    simp only [Node.children_mk] at hcl
    subst hcl
    simp only [Node.size_mk] at hsl
    have hislt : id % 32 < l.length := by omega
    have hcwf : nodeWF (l.getD (id % 32) Node.empty) = true := listWF_getD l _ hlwf
    have hgd : (Node.mk d0 s0 (some l)).children.getD [] = l := rfl
    by_cases hq : id / 32 = 0
    · rw [IMAP_add_old_leaf al _ id v hs' hq] at hrc
      simp only [] at hrc
      split at hrc <;> simp at hrc
    · rw [IMAP_add_old_deep al _ id v hs' hq] at hrc ⊢
      rw [hgd] at hrc ⊢
      simp only [] at hrc
      simp only [Node.size_mk, Node.data_mk]
      have hrec := IH (id / 32 - 1) (by omega) al (l.getD (id % 32) Node.empty) v
        hcwf hrc
      obtain ⟨hdat2, hsz2, hget2, hwalk2⟩ := hrec
      rw [hrc]
      rw [if_neg (by norm_num : ¬ ((0 : Int) < -1))]
      refine ⟨by trivial, by trivial, ?_, ?_⟩
      · intro j
        rw [IMAP_get_some_eq, IMAP_get_some_eq]
        by_cases hij : j % 32 = id % 32
        · rw [hij, getD_set_self _ _ _ _ hislt]
          by_cases hqj : j / 32 = 0
          · rw [if_pos hqj, if_pos hqj, hdat2]
          · rw [if_neg hqj, if_neg hqj, step_get, step_get, hget2 (j / 32 - 1)]
        · rw [getD_set_ne _ _ _ _ _ (fun h => hij h.symm)]
      · rw [walkNode_unfold, walkNode_unfold]
        simp only []
        rw [walkList_set l (id % 32) _ hislt hwalk2]

/-- A failed `imap_add` (allocation error) leaves `len`, every lookup, the
walk order, and the result of every pop unchanged. -/
theorem imap_add_fail_ok {V : Type} (al : List Bool) (m : Imap V) (id : Nat)
    (v : V) (hwf : imapWF m = true)
    (hrc : (imap_add al m id v).2.2 = -1) :
    (imap_add al m id v).2.1.len = m.len ∧
    (∀ j, imap_get (imap_add al m id v).2.1 j = imap_get m j) ∧
    imap_walk_order (imap_add al m id v).2.1 = imap_walk_order m ∧
    (∀ k, (imap_pop (imap_add al m id v).2.1 k).2 = (imap_pop m k).2) := by
  obtain ⟨hlen, hsl, hlwf⟩ := imapWF_parts m hwf
  have hi32 : id % 32 < 32 := by omega
  have hislt : id % 32 < m.nodes.length := by omega
  have hcwf := listWF_getD m.nodes (id % 32) hlwf
  by_cases hq : id / 32 = 0
  · rw [imap_add_leaf al m id v hq] at hrc
    simp at hrc
  · rw [imap_add_deep al m id v hq] at hrc ⊢
    simp only [] at hrc ⊢
    have hrec := IMAP_add_fail_ok (id / 32 - 1) al
      (m.nodes.getD (id % 32) Node.empty) v hcwf hrc
    obtain ⟨hdat2, hsz2, hget2, hwalk2⟩ := hrec
    rw [hrc, if_neg (by norm_num : ¬ ((0 : Int) < -1))]
    have hgets : ∀ j, imap_get (⟨m.len, m.nodes.set (id % 32)
        (IMAP_add al (m.nodes.getD (id % 32) Node.empty)
          (id / 32 - 1) v).2.1⟩ : Imap V) j = imap_get m j := by
      intro j
      rw [imap_get_eq, imap_get_eq]
      simp only []
      by_cases hij : j % 32 = id % 32
      · rw [hij, getD_set_self _ _ _ _ hislt]
        by_cases hqj : j / 32 = 0
        · rw [if_pos hqj, if_pos hqj, hdat2]
        · rw [if_neg hqj, if_neg hqj, step_get, step_get, hget2 (j / 32 - 1)]
      · rw [getD_set_ne _ _ _ _ _ (fun h => hij h.symm)]
    refine ⟨by trivial, hgets, ?_, ?_⟩
    · rw [imap_walk_order, imap_walk_order]
      simp only []
      by_cases hl0 : m.len = 0
      · rw [if_pos hl0, if_pos hl0]
      · rw [if_neg hl0, if_neg hl0,
          walkList_set m.nodes (id % 32) _ hislt hwalk2]
    · intro k
      rw [imap_pop_result, imap_pop_result, hgets k]

/-! ### Walk length and `imap_2slist` agree with the entry count -/

theorem walk_length_all {V : Type} :
    (∀ c : Node V, (IMAP_walkNode c).length = c.cnt) ∧
    (∀ l : List (Node V), (IMAP_walkList l).length = listTotal l) := by
  apply nodeListInd (fun c : Node V => (IMAP_walkNode c).length = c.cnt)
    (fun l : List (Node V) => (IMAP_walkList l).length = listTotal l)
  · simp [walkList_nil, listTotal]
  · intro c cs hc hcs
    rw [walkList_cons, List.length_append, hc, hcs, listTotal_cons]
  · intro d s cso hIH
    rw [walkNode_unfold]
    cases cso with
    | none =>
      cases d <;> simp [Node.cnt, Node.total] <;> try omega
    | some l =>
      have hl := hIH l rfl
      cases d <;> simp [Node.cnt, Node.total, hl] <;> try omega

theorem twoslistNode_unfold {V : Type} (d : Option V) (s : Nat)
    (cs : Option (List (Node V))) :
    IMAP_2slistNode (Node.mk d s cs) =
      (match d with
       | some v => [v]
       | none => []) ++
      (match cs with
       | none => []
       | some l => IMAP_2slistList l) := by
  rw [IMAP_2slistNode.eq_def]

theorem twoslistList_nil {V : Type} :
    IMAP_2slistList ([] : List (Node V)) = [] := by
  simp only [IMAP_2slistList]

theorem twoslistList_cons {V : Type} (c : Node V) (rest : List (Node V)) :
    IMAP_2slistList (c :: rest) = IMAP_2slistNode c ++ IMAP_2slistList rest := by
  simp only [IMAP_2slistList]

theorem twoslist_eq_walk_all {V : Type} :
    (∀ c : Node V, IMAP_2slistNode c = IMAP_walkNode c) ∧
    (∀ l : List (Node V), IMAP_2slistList l = IMAP_walkList l) := by
  apply nodeListInd (fun c : Node V => IMAP_2slistNode c = IMAP_walkNode c)
    (fun l : List (Node V) => IMAP_2slistList l = IMAP_walkList l)
  · rw [twoslistList_nil, walkList_nil]
  · intro c cs hc hcs
    rw [twoslistList_cons, walkList_cons, hc, hcs]
  · intro d s cso hIH
    rw [twoslistNode_unfold, walkNode_unfold]
    cases cso with
    | none => rfl
    | some l =>
      simp only []
      rw [hIH l rfl]

/-- `imap_2slist` on the always-succeeding allocator: the sequence is exactly
the walk order. -/
theorem imap_2slist_ok {V : Type} (al al1 : List Bool) (m : Imap V)
    (hb : allocNext al = (true, al1)) :
    imap_2slist al m = (al1, some (imap_walk_order m)) := by
  rw [imap_2slist]
  simp only [hb]
  rw [if_neg (by simp : ¬ ((true, al1) : Bool × List Bool).1 = false)]
  rw [imap_walk_order]
  by_cases hl : m.len = 0
  · rw [if_pos hl, if_pos hl]
  · rw [if_neg hl, if_neg hl, twoslist_eq_walk_all.2 m.nodes]

theorem imap_2slist_fail {V : Type} (al al1 : List Bool) (m : Imap V)
    (hb : allocNext al = (false, al1)) :
    imap_2slist al m = (al1, none) := by
  rw [imap_2slist]
  simp only [hb]
  rfl

/-- The walk order has exactly `len` elements on a well-formed map. -/
theorem walk_order_length {V : Type} (m : Imap V) (hwf : imapWF m = true) :
    (imap_walk_order m).length = m.len := by
  obtain ⟨hlen, hsl, hlwf⟩ := imapWF_parts m hwf
  rw [imap_walk_order]
  by_cases hl : m.len = 0
  · rw [if_pos hl, hl]
    rfl
  · rw [if_neg hl, walk_length_all.2 m.nodes, hsl]

/-! ### Branch equations for `IMAP_walkn` -/

theorem walknList_nil {V : Type} (cb : V → Int) (n : Nat) :
    IMAP_walknList cb ([] : List (Node V)) n = (n, []) := by
  simp only [IMAP_walknList]

theorem walknList_zero {V : Type} (cb : V → Int) (c : Node V)
    (rest : List (Node V)) :
    IMAP_walknList cb (c :: rest) 0 = (0, []) := by
  rw [IMAP_walknList.eq_def]
  simp

theorem walknList_cons {V : Type} (cb : V → Int) (c : Node V)
    (rest : List (Node V)) (n : Nat) (hn : n ≠ 0) :
    IMAP_walknList cb (c :: rest) n =
      ((IMAP_walknList cb rest (IMAP_walknNode cb c n).1).1,
       (IMAP_walknNode cb c n).2
         ++ (IMAP_walknList cb rest (IMAP_walknNode cb c n).1).2) := by
  rw [IMAP_walknList.eq_def]
  simp only []
  rw [if_neg hn]

theorem walknNode_none_none {V : Type} (cb : V → Int) (s : Nat) (n : Nat) :
    IMAP_walknNode cb (Node.mk (none : Option V) s none) n = (n, []) := by
  rw [IMAP_walknNode.eq_def]

theorem walknNode_none_some {V : Type} (cb : V → Int) (s : Nat)
    (l : List (Node V)) (n : Nat) :
    IMAP_walknNode cb (Node.mk (none : Option V) s (some l)) n
      = IMAP_walknList cb l n := by
  rw [IMAP_walknNode.eq_def]

theorem walknNode_some_stop {V : Type} (cb : V → Int) (v : V) (s : Nat)
    (cs : Option (List (Node V))) (n : Nat) (hz : walknStep cb n v = 0) :
    IMAP_walknNode cb (Node.mk (some v) s cs) n = (0, [v]) := by
  rw [IMAP_walknNode.eq_def]
  simp only []
  rw [hz, if_pos rfl]

theorem walknNode_some_none {V : Type} (cb : V → Int) (v : V) (s : Nat)
    (n : Nat) (hz : walknStep cb n v ≠ 0) :
    IMAP_walknNode cb (Node.mk (some v) s none) n = (walknStep cb n v, [v]) := by
  rw [IMAP_walknNode.eq_def]
  simp only []
  rw [if_neg hz]

theorem walknNode_some_some {V : Type} (cb : V → Int) (v : V) (s : Nat)
    (l : List (Node V)) (n : Nat) (hz : walknStep cb n v ≠ 0) :
    IMAP_walknNode cb (Node.mk (some v) s (some l)) n =
      ((IMAP_walknList cb l (walknStep cb n v)).1,
       v :: (IMAP_walknList cb l (walknStep cb n v)).2) := by
  rw [IMAP_walknNode.eq_def]
  simp only []
  rw [if_neg hz]

theorem walknStep_one {V : Type} (cb : V → Int) (hcb : ∀ v, cb v = 1)
    (n : Nat) (v : V) (hn : 0 < n) (h64 : n < 2 ^ 64) :
    walknStep cb n v = n - 1 := by
  simp only [walknStep, hcb v]
  omega

/-! ### `imap_walkn` with a unit callback visits a prefix of the walk -/

theorem walkn_take_all {V : Type} (cb : V → Int) (hcb : ∀ v, cb v = 1) :
    (∀ c : Node V, ∀ n, 0 < n → n < 2 ^ 64 →
      IMAP_walknNode cb c n
        = (n - min n (IMAP_walkNode c).length, (IMAP_walkNode c).take n)) ∧
    (∀ l : List (Node V), ∀ n, n < 2 ^ 64 →
      IMAP_walknList cb l n
        = (n - min n (IMAP_walkList l).length, (IMAP_walkList l).take n)) := by
  apply nodeListInd
    (fun c : Node V => ∀ n, 0 < n → n < 2 ^ 64 →
      IMAP_walknNode cb c n
        = (n - min n (IMAP_walkNode c).length, (IMAP_walkNode c).take n))
    (fun l : List (Node V) => ∀ n, n < 2 ^ 64 →
      IMAP_walknList cb l n
        = (n - min n (IMAP_walkList l).length, (IMAP_walkList l).take n))
  · intro n h64
    rw [walknList_nil, walkList_nil]
    simp
  · intro c cs hc hcs n h64
    rw [walkList_cons]
    by_cases h0 : n = 0
    · subst h0
      rw [walknList_zero]
      simp
    · rw [walknList_cons cb c cs n h0]
      rw [hc n (by omega) h64]
      simp only []
      rw [hcs (n - min n (IMAP_walkNode c).length) (by omega)]
      simp only []
      rw [Prod.mk.injEq]
      constructor
      · rw [List.length_append]
        omega
      · rw [List.take_append_eq_append_take]
        rw [show n - min n (IMAP_walkNode c).length
          = n - (IMAP_walkNode c).length from by omega]
  · intro d s cso hIH n hn h64
    cases d with
    | none =>
      cases cso with
      | none =>
        rw [walknNode_none_none, walkNode_unfold]
        simp
      | some l =>
        rw [walknNode_none_some, walkNode_unfold, hIH l rfl n h64]
        simp only []
        rfl
    | some v =>
      have hstep := walknStep_one cb hcb n v hn h64
      by_cases h1 : n = 1
      · have hz : walknStep cb n v = 0 := by omega
        rw [walknNode_some_stop cb v s cso n hz, walkNode_unfold, h1]
        cases cso with
        | none => simp
        | some l => simp
      · have hz : walknStep cb n v ≠ 0 := by omega
        cases cso with
        | none =>
          rw [walknNode_some_none cb v s n hz, walkNode_unfold, hstep]
          have hnp : ∃ k, n = k + 2 := ⟨n - 2, by omega⟩
          obtain ⟨k, hk⟩ := hnp
          subst hk
          simp [List.take]
        | some l =>
          rw [walknNode_some_some cb v s l n hz, walkNode_unfold, hstep,
            hIH l rfl (n - 1) (by omega)]
          simp only []
          rw [Prod.mk.injEq]
          constructor
          · rw [List.length_append]
            simp only [List.length_cons, List.length_nil]
            omega
          · have hnp : ∃ k, n = k + 1 := ⟨n - 1, by omega⟩
            obtain ⟨k, hk⟩ := hnp
            subst hk
            simp [List.take]

/-- `imap_walkn` with a unit callback: the visited entries are exactly the
first `min n len` entries of the walk order. -/
theorem imap_walkn_ok {V : Type} (m : Imap V) (n : Nat) (cb : V → Int)
    (hcb : ∀ v, cb v = 1) (hwf : imapWF m = true) (h64 : n < 2 ^ 64) :
    (imap_walkn m n cb).2 = (imap_walk_order m).take n ∧
    ((imap_walkn m n cb).2).length = min n m.len := by
  have hlt := walk_order_length m hwf
  have hmain : (imap_walkn m n cb).2 = (imap_walk_order m).take n := by
    rw [imap_walkn, imap_walk_order]
    by_cases hl : m.len = 0
    · rw [if_pos hl, if_pos hl]
      simp
    · rw [if_neg hl, if_neg hl, (walkn_take_all cb hcb).2 m.nodes n h64]
  refine ⟨hmain, ?_⟩
  rw [hmain, List.length_take, hlt]

/-! ### Membership in the walk order is exactly being stored -/

theorem slot_exists_iff_get {V : Type} (d : Option V) (s : Nat)
    (l : List (Node V)) (hlen : l.length = 32) (v : V) :
    (∃ i, i < l.length ∧ ((l.getD i Node.empty).data = some v
      ∨ ∃ x, IMAP_get (l.getD i Node.empty) x = some v))
    ↔ ∃ x, IMAP_get (Node.mk d s (some l)) x = some v := by
  constructor
  · rintro ⟨i, hi, hcase⟩
    rcases hcase with hdata | ⟨x, hx⟩
    · refine ⟨i, ?_⟩
      rw [IMAP_get_some_eq]
      have h2 : i / 32 = 0 := by omega
      have h1 : i % 32 = i := by omega
      rw [h1, if_pos h2]
      exact hdata
    · refine ⟨i + 32 * (x + 1), ?_⟩
      rw [IMAP_get_some_eq]
      have h1 : (i + 32 * (x + 1)) % 32 = i := by omega
      have h2 : (i + 32 * (x + 1)) / 32 = x + 1 := by omega
      rw [h1, h2, if_neg (by omega), step_get]
      rw [show x + 1 - 1 = x from rfl]
      exact hx
  · rintro ⟨x, hx⟩
    rw [IMAP_get_some_eq] at hx
    by_cases hq : x / 32 = 0
    · rw [if_pos hq] at hx
      exact ⟨x % 32, by omega, Or.inl hx⟩
    · rw [if_neg hq, step_get] at hx
      exact ⟨x % 32, by omega, Or.inr ⟨x / 32 - 1, hx⟩⟩

theorem walk_mem_all {V : Type} :
    (∀ c : Node V, nodeWF c = true → ∀ v : V,
      (v ∈ IMAP_walkNode c ↔ c.data = some v ∨ ∃ x, IMAP_get c x = some v)) ∧
    (∀ l : List (Node V), listWF l = true → ∀ v : V,
      (v ∈ IMAP_walkList l ↔ ∃ i, i < l.length ∧
        ((l.getD i Node.empty).data = some v
          ∨ ∃ x, IMAP_get (l.getD i Node.empty) x = some v))) := by
  apply nodeListInd
    (fun c : Node V => nodeWF c = true → ∀ v : V,
      (v ∈ IMAP_walkNode c ↔ c.data = some v ∨ ∃ x, IMAP_get c x = some v))
    (fun l : List (Node V) => listWF l = true → ∀ v : V,
      (v ∈ IMAP_walkList l ↔ ∃ i, i < l.length ∧
        ((l.getD i Node.empty).data = some v
          ∨ ∃ x, IMAP_get (l.getD i Node.empty) x = some v)))
  · intro _ v
    rw [walkList_nil]
    simp
  · intro c cs hc hcs hwf v
    rw [listWF_cons] at hwf
    simp only [Bool.and_eq_true] at hwf
    rw [walkList_cons, List.mem_append, hc hwf.1 v, hcs hwf.2 v]
    constructor
    · rintro (h | ⟨i, hi, h⟩)
      · exact ⟨0, by simp, h⟩
      · exact ⟨i + 1, by simpa using hi, h⟩
    · rintro ⟨i, hi, h⟩
      cases i with
      | zero => exact Or.inl h
      | succ j => exact Or.inr ⟨j, by simpa using hi, h⟩
  · intro d s cso hIH hwf v
    rw [walkNode_unfold]
    cases cso with
    | none =>
      have hg : ∀ x, IMAP_get (Node.mk d s none) x = none := fun x =>
        IMAP_get_children_none _ x rfl
      cases d with
      | none => simp [hg]
      | some w => simp [hg, eq_comm]
    | some l =>
      have hparts := nodeWF_some d s l hwf
      have hQ := hIH l rfl hparts.2.2.2 v
      rw [show (Node.mk d s (some l)).data = d from rfl]
      cases d with
      | none =>
        simp only [List.nil_append]
        rw [hQ, slot_exists_iff_get none s l hparts.1 v]
        simp
      | some w =>
        simp only [List.cons_append, List.nil_append, List.mem_cons]
        rw [hQ, slot_exists_iff_get (some w) s l hparts.1 v]
        constructor
        · rintro (h | h)
          · exact Or.inl (by rw [h])
          · exact Or.inr h
        · rintro (h | h)
          · exact Or.inl (by exact Option.some.inj h.symm ▸ rfl)
          · exact Or.inr h

theorem imap_get_len_zero {V : Type} (m : Imap V) (hwf : imapWF m = true)
    (hl : m.len = 0) (k : Nat) : imap_get m k = none := by
  obtain ⟨hlen, hsl, hlwf⟩ := imapWF_parts m hwf
  cases hg : imap_get m k with
  | none => rfl
  | some v =>
    have hsome : (IMAP_get (Node.mk (none : Option V) 0 (some m.nodes)) k).isSome
        = true := by
      rw [← imap_get_as_node m 0, hg]
      rfl
    have h1 := get_slot_cnt (none : Option V) 0 m.nodes k hlwf hsome
    have h2 := cnt_getD_le m.nodes (k % 32) (by omega)
    omega

/-- On a well-formed map the walk order contains exactly the stored values. -/
theorem walk_order_mem {V : Type} (m : Imap V) (hwf : imapWF m = true) (v : V) :
    v ∈ imap_walk_order m ↔ ∃ k, imap_get m k = some v := by
  obtain ⟨hlen, hsl, hlwf⟩ := imapWF_parts m hwf
  rw [imap_walk_order]
  by_cases hl : m.len = 0
  · rw [if_pos hl]
    constructor
    · intro h
      exact absurd h (List.not_mem_nil v)
    · rintro ⟨k, hk⟩
      rw [imap_get_len_zero m hwf hl k] at hk
      exact Option.noConfusion hk
  · rw [if_neg hl, walk_mem_all.2 m.nodes hlwf v,
      slot_exists_iff_get (none : Option V) 1 m.nodes hlen v]
    constructor
    · rintro ⟨k, hk⟩
      exact ⟨k, by rw [imap_get_as_node m 1]; exact hk⟩
    · rintro ⟨k, hk⟩
      rw [imap_get_as_node m 1] at hk
      exact ⟨k, hk⟩

/-! ### Slot-wise view of lookups, and the union's per-slot behaviour -/

/-- What a single slot contributes to `IMAP_get` for a given quotient. -/
def slotGet {V : Type} (c : Node V) (q : Nat) : Option V :=
  if q = 0 then c.data
  else if c.children.isNone then none
  else IMAP_get c (q - 1)

theorem slotGet_zero {V : Type} (c : Node V) : slotGet c 0 = c.data := rfl

theorem slotGet_succ {V : Type} (c : Node V) (q : Nat) (hq : q ≠ 0) :
    slotGet c q = IMAP_get c (q - 1) := by
  rw [slotGet, if_neg hq, step_get]

theorem slotGet_empty {V : Type} (q : Nat) :
    slotGet (Node.empty : Node V) q = none := by
  by_cases hq : q = 0
  · rw [hq, slotGet_zero]
    rfl
  · rw [slotGet_succ _ q hq]
    exact IMAP_get_children_none _ _ rfl

theorem IMAP_get_slots {V : Type} (d : Option V) (s : Nat) (l : List (Node V))
    (j : Nat) :
    IMAP_get (Node.mk d s (some l)) j
      = slotGet (l.getD (j % 32) Node.empty) (j / 32) := by
  rw [IMAP_get_some_eq, slotGet]

theorem imap_get_slots {V : Type} (m : Imap V) (j : Nat) :
    imap_get m j = slotGet (m.nodes.getD (j % 32) Node.empty) (j / 32) := by
  rw [imap_get_eq, slotGet]

theorem slotGet_children_only {V : Type} (d1 d2 : Option V) (s1 s2 : Nat)
    (cs : Option (List (Node V))) (q : Nat) (hq : q ≠ 0) :
    slotGet (Node.mk d1 s1 cs) q = slotGet (Node.mk d2 s2 cs) q := by
  rw [slotGet_succ _ q hq, slotGet_succ _ q hq, IMAP_get_data_irrel d1 d2 s1 s2]

/-- The work done by one slot of the union loop: reconcile the two values,
then merge or transplant the children arrays. -/
def IMAP_unionHead {V : Type} (d s : Node V) : Node V × Nat × List V :=
  let d1 : Node V × Nat × List V :=
    match s.data, d.data with
    | some v, some _ => (d, 0, [v])
    | some v, none => (Node.mk (some v) d.size d.children, 1, [])
    | none, _ => (d, 0, [])
  let d2 : Node V × Nat × List V :=
    match s.children with
    | some _ =>
      match d1.1.children with
      | some _ =>
        let r := IMAP_union_ref d1.1 s
        (r.1, r.1.size - d1.1.size, r.2)
      | none => (Node.mk d1.1.data s.size s.children, s.size, [])
    | none => (d1.1, 0, [])
  (d2.1, d1.2.1 + d2.2.1, d1.2.2 ++ d2.2.2)

theorem unionSlots_nil_right {V : Type} (ds : List (Node V)) :
    IMAP_unionSlots ds [] = (ds, 0, []) := by
  rw [IMAP_unionSlots.eq_def]
  cases ds <;> rfl

theorem unionSlots_cons {V : Type} (d s : Node V) (ds ss : List (Node V)) :
    IMAP_unionSlots (d :: ds) (s :: ss)
      = ((IMAP_unionHead d s).1 :: (IMAP_unionSlots ds ss).1,
         (IMAP_unionHead d s).2.1 + (IMAP_unionSlots ds ss).2.1,
         (IMAP_unionHead d s).2.2 ++ (IMAP_unionSlots ds ss).2.2) := by
  rw [IMAP_unionSlots.eq_def]
  simp only [IMAP_unionHead]

theorem union_ref_unfold {V : Type} (dest src : Node V) :
    IMAP_union_ref dest src =
      (Node.mk dest.data
        (dest.size + (IMAP_unionSlots (dest.children.getD [])
          (src.children.getD [])).2.1)
        (some (IMAP_unionSlots (dest.children.getD [])
          (src.children.getD [])).1),
       (IMAP_unionSlots (dest.children.getD [])
         (src.children.getD [])).2.2) := by
  rw [IMAP_union_ref.eq_def]

/-- The value-reconciliation step of one union slot. -/
def unionData {V : Type} (d s : Node V) : Node V × Nat × List V :=
  match s.data, d.data with
  | some v, some _ => (d, 0, [v])
  | some v, none => (Node.mk (some v) d.size d.children, 1, [])
  | none, _ => (d, 0, [])

theorem unionHead_via {V : Type} (d s : Node V) :
    IMAP_unionHead d s =
      ((match s.children with
        | some _ =>
          match (unionData d s).1.children with
          | some _ =>
            ((IMAP_union_ref (unionData d s).1 s).1,
             (IMAP_union_ref (unionData d s).1 s).1.size
               - (unionData d s).1.size,
             (IMAP_union_ref (unionData d s).1 s).2)
          | none => (Node.mk (unionData d s).1.data s.size s.children,
              s.size, [])
        | none => ((unionData d s).1, 0, [])).1,
       (unionData d s).2.1 +
        (match s.children with
         | some _ =>
           match (unionData d s).1.children with
           | some _ =>
             ((IMAP_union_ref (unionData d s).1 s).1,
              (IMAP_union_ref (unionData d s).1 s).1.size
                - (unionData d s).1.size,
              (IMAP_union_ref (unionData d s).1 s).2)
           | none => (Node.mk (unionData d s).1.data s.size s.children,
               s.size, [])
         | none => ((unionData d s).1, 0, [])).2.1,
       (unionData d s).2.2 ++
        (match s.children with
         | some _ =>
           match (unionData d s).1.children with
           | some _ =>
             ((IMAP_union_ref (unionData d s).1 s).1,
              (IMAP_union_ref (unionData d s).1 s).1.size
                - (unionData d s).1.size,
              (IMAP_union_ref (unionData d s).1 s).2)
           | none => (Node.mk (unionData d s).1.data s.size s.children,
               s.size, [])
         | none => ((unionData d s).1, 0, [])).2.2) := by
  simp only [IMAP_unionHead, unionData]

theorem unionData_fst {V : Type} (d s : Node V) :
    (unionData d s).1 = Node.mk (oor d.data s.data) d.size d.children := by
  cases hs : s.data with
  | none =>
    cases hd : d.data with
    | none =>
      simp only [unionData, hs, hd, oor]
      conv_rhs => rw [← hd]
      exact (Node.eta d).symm
    | some dv =>
      simp only [unionData, hs, hd, oor]
      conv_rhs => rw [← hd]
      exact (Node.eta d).symm
  | some sv =>
    cases hd : d.data with
    | none =>
      simp only [unionData, hs, hd, oor]
    | some dv =>
      simp only [unionData, hs, hd, oor]
      conv_rhs => rw [← hd]
      exact (Node.eta d).symm

theorem unionData_count {V : Type} (d s : Node V) :
    (unionData d s).2.1 + (unionData d s).2.2.length
      = (if s.data.isSome then 1 else 0) := by
  cases hs : s.data <;> cases hd : d.data <;> simp [unionData, hs, hd]

theorem unionData_bit {V : Type} (d s : Node V) :
    (if (oor d.data s.data).isSome then 1 else 0)
      = (if d.data.isSome then 1 else 0) + (unionData d s).2.1 := by
  cases hs : s.data <;> cases hd : d.data <;> simp [unionData, hs, hd, oor]

theorem unionData_trace {V : Type} (d s : Node V) (v : V)
    (hv : v ∈ (unionData d s).2.2) :
    d.data.isSome = true ∧ s.data = some v := by
  cases hs : s.data with
  | none =>
    cases hd : d.data <;> simp [unionData, hs, hd] at hv
  | some sv =>
    cases hd : d.data with
    | none => simp [unionData, hs, hd] at hv
    | some dv =>
      simp [unionData, hs, hd] at hv
      subst hv
      exact ⟨rfl, rfl⟩

theorem total_children_none {V : Type} (nd : Node V) (h : nd.children = none) :
    nd.total = 0 := by
  cases nd with
  | mk d s cs =>
    simp only [Node.children_mk] at h
    subst h
    exact total_none d s

theorem unionHead_ok {V : Type} (d s : Node V)
    (hwfd : nodeWF d = true) (hwfs : nodeWF s = true)
    (HP : ∀ dest : Node V, nodeWF dest = true →
      dest.children.isSome = true → s.children.isSome = true →
      nodeWF (IMAP_union_ref dest s).1 = true ∧
      (IMAP_union_ref dest s).1.data = dest.data ∧
      dest.size ≤ (IMAP_union_ref dest s).1.size ∧
      (IMAP_union_ref dest s).1.size + (IMAP_union_ref dest s).2.length
        = dest.size + s.size ∧
      (∀ j, IMAP_get (IMAP_union_ref dest s).1 j
        = oor (IMAP_get dest j) (IMAP_get s j)) ∧
      (∀ v ∈ (IMAP_union_ref dest s).2, ∃ j,
        (IMAP_get dest j).isSome = true ∧ IMAP_get s j = some v)) :
    nodeWF (IMAP_unionHead d s).1 = true ∧
    (IMAP_unionHead d s).2.1 + ((IMAP_unionHead d s).2.2).length = s.cnt ∧
    (IMAP_unionHead d s).1.cnt = d.cnt + (IMAP_unionHead d s).2.1 ∧
    (∀ q, slotGet (IMAP_unionHead d s).1 q
      = oor (slotGet d q) (slotGet s q)) ∧
    (∀ v ∈ (IMAP_unionHead d s).2.2, ∃ q,
      (slotGet d q).isSome = true ∧ slotGet s q = some v) := by
  have hduf := unionData_fst d s
  have hdcount := unionData_count d s
  have hdbit := unionData_bit d s
  have hdtot := total_eq_size d hwfd
  have hstot := total_eq_size s hwfs
  rw [unionHead_via]
  cases hscs : s.children with
  | none =>
    simp only []
    have hst : s.total = 0 := total_children_none s hscs
    refine ⟨?_, ?_, ?_, ?_, ?_⟩
    · rw [hduf, nodeWF_data_irrel _ d.data, Node.eta]
      exact hwfd
    · simp only [List.append_nil, Nat.add_zero]
      rw [hdcount, Node.cnt]
      omega
    · rw [hduf]
      simp only [Node.cnt, Node.data_mk, Nat.add_zero]
      rw [total_children_only (oor d.data s.data) d.data d.size d.size, Node.eta]
      omega
    · intro q
      by_cases hq : q = 0
      · subst hq
        rw [slotGet_zero, slotGet_zero, slotGet_zero, hduf, Node.data_mk]
      · rw [hduf, slotGet_children_only (oor d.data s.data) d.data d.size d.size
          d.children q hq, Node.eta]
        have hsq : slotGet s q = none := by
          rw [slotGet_succ s q hq, IMAP_get_children_none s _ hscs]
        rw [hsq, oor_none_right]
    · intro v hv
      simp only [List.append_nil] at hv
      obtain ⟨h1, h2⟩ := unionData_trace d s v hv
      exact ⟨0, by rw [slotGet_zero]; exact h1, by rw [slotGet_zero]; exact h2⟩
  | some sl =>
    simp only []
    rw [hduf]
    simp only [Node.children_mk]
    have hssz : s.size = listTotal sl := by
      cases s with
      | mk sd0 ssz0 scs0 =>
        simp only [Node.children_mk] at hscs
        subst hscs
        exact (nodeWF_some sd0 ssz0 sl hwfs).2.1
    have hssz0 : s.size ≠ 0 := nodeWF_children_some_size s sl hwfs hscs
    cases hdcs : d.children with
    | none =>
      simp only [Node.data_mk]
      have hdt : d.total = 0 := total_children_none d hdcs
      refine ⟨?_, ?_, ?_, ?_, ?_⟩
      · rw [nodeWF_data_irrel _ s.data]
        rw [show Node.mk s.data s.size (some sl)
          = Node.mk s.data s.size s.children from by rw [hscs]]
        rw [Node.eta]
        exact hwfs
      · simp only [List.append_nil, Node.cnt]
        omega
      · simp only [Node.cnt, Node.data_mk, total_some]
        omega
      · intro q
        by_cases hq : q = 0
        · subst hq
          rw [slotGet_zero, slotGet_zero, slotGet_zero]
          rfl
        · rw [slotGet_children_only (oor d.data s.data) s.data s.size s.size
            (some sl) q hq]
          rw [show Node.mk s.data s.size (some sl)
            = Node.mk s.data s.size s.children from by rw [hscs]]
          rw [Node.eta]
          have hdq : slotGet d q = none := by
            rw [slotGet_succ d q hq, IMAP_get_children_none d _ hdcs]
          rw [hdq, oor_none_left]
      · intro v hv
        simp only [List.append_nil] at hv
        obtain ⟨h1, h2⟩ := unionData_trace d s v hv
        exact ⟨0, by rw [slotGet_zero]; exact h1, by rw [slotGet_zero]; exact h2⟩
    | some dl =>
      simp only [Node.data_mk]
      have hd1eq : Node.mk (oor d.data s.data) d.size (some dl)
          = Node.mk (oor d.data s.data) d.size d.children := by rw [hdcs]
      have hdeq : Node.mk d.data d.size (some dl) = d := by
        rw [show (some dl : Option (List (Node V))) = d.children from hdcs.symm,
          Node.eta]
      have hwfd1 : nodeWF (Node.mk (oor d.data s.data) d.size (some dl))
          = true := by
        rw [nodeWF_data_irrel _ d.data, hdeq]
        exact hwfd
      have hr := HP (Node.mk (oor d.data s.data) d.size (some dl)) hwfd1
        (by simp) (by rw [hscs]; rfl)
      obtain ⟨hr1, hr2, hr3, hr4, hr5, hr6⟩ := hr
      have hrsz : (IMAP_union_ref (Node.mk (oor d.data s.data) d.size
          (some dl)) s).1.size
          + (IMAP_union_ref (Node.mk (oor d.data s.data) d.size (some dl)) s).2.length
          = d.size + s.size := by
        rw [hr4]
        rfl
      have hrmono : d.size ≤ (IMAP_union_ref (Node.mk (oor d.data s.data)
          d.size (some dl)) s).1.size := hr3
      refine ⟨hr1, ?_, ?_, ?_, ?_⟩
      · rw [List.length_append]
        simp only [Node.cnt]
        simp only [Node.size_mk] at hrsz hrmono
        omega
      · rw [cnt_of_WF _ hr1, hr2]
        simp only [Node.data_mk, Node.size_mk, Node.cnt]
        rw [hdtot]
        simp only [Node.size_mk] at hrmono
        omega
      · intro q
        by_cases hq : q = 0
        · subst hq
          rw [slotGet_zero, slotGet_zero, slotGet_zero, hr2, Node.data_mk]
        · rw [slotGet_succ _ q hq, slotGet_succ d q hq, slotGet_succ s q hq,
            hr5 (q - 1)]
          congr 1
          conv_rhs => rw [← hdeq]
          rw [IMAP_get_data_irrel (oor d.data s.data) d.data d.size d.size]
      · intro v hv
        rw [List.mem_append] at hv
        rcases hv with hv1 | hv2
        · obtain ⟨h1, h2⟩ := unionData_trace d s v hv1
          exact ⟨0, by rw [slotGet_zero]; exact h1,
            by rw [slotGet_zero]; exact h2⟩
        · obtain ⟨j, hj1, hj2⟩ := hr6 v hv2
          refine ⟨j + 1, ?_, ?_⟩
          · rw [slotGet_succ d (j + 1) (by omega),
              show j + 1 - 1 = j from rfl]
            have hgg : IMAP_get d j
                = IMAP_get (Node.mk (oor d.data s.data) d.size (some dl)) j := by
              conv_lhs => rw [← hdeq]
              rw [IMAP_get_data_irrel d.data (oor d.data s.data) d.size d.size]
            rw [hgg]
            exact hj1
          · rw [slotGet_succ s (j + 1) (by omega),
              show j + 1 - 1 = j from rfl]
            exact hj2

theorem listTotal_nil {V : Type} : listTotal ([] : List (Node V)) = 0 := by
  simp [listTotal]

theorem union_slots_main {V : Type} :
    (∀ src : Node V, ∀ dest : Node V, nodeWF dest = true → nodeWF src = true →
      dest.children.isSome = true → src.children.isSome = true →
      nodeWF (IMAP_union_ref dest src).1 = true ∧
      (IMAP_union_ref dest src).1.data = dest.data ∧
      dest.size ≤ (IMAP_union_ref dest src).1.size ∧
      (IMAP_union_ref dest src).1.size + (IMAP_union_ref dest src).2.length
        = dest.size + src.size ∧
      (∀ j, IMAP_get (IMAP_union_ref dest src).1 j
        = oor (IMAP_get dest j) (IMAP_get src j)) ∧
      (∀ v ∈ (IMAP_union_ref dest src).2, ∃ j,
        (IMAP_get dest j).isSome = true ∧ IMAP_get src j = some v)) ∧
    (∀ ss : List (Node V), ∀ ds : List (Node V), ds.length = ss.length →
      listWF ds = true → listWF ss = true →
      listWF (IMAP_unionSlots ds ss).1 = true ∧
      (IMAP_unionSlots ds ss).1.length = ds.length ∧
      (IMAP_unionSlots ds ss).2.1 + (IMAP_unionSlots ds ss).2.2.length
        = listTotal ss ∧
      listTotal (IMAP_unionSlots ds ss).1
        = listTotal ds + (IMAP_unionSlots ds ss).2.1 ∧
      (∀ i q, i < ss.length →
        slotGet ((IMAP_unionSlots ds ss).1.getD i Node.empty) q
          = oor (slotGet (ds.getD i Node.empty) q)
                (slotGet (ss.getD i Node.empty) q)) ∧
      (∀ v ∈ (IMAP_unionSlots ds ss).2.2, ∃ i q, i < ss.length ∧
        (slotGet (ds.getD i Node.empty) q).isSome = true ∧
        slotGet (ss.getD i Node.empty) q = some v)) := by
  apply nodeListInd
    (fun src : Node V => ∀ dest : Node V, nodeWF dest = true →
      nodeWF src = true →
      dest.children.isSome = true → src.children.isSome = true →
      nodeWF (IMAP_union_ref dest src).1 = true ∧
      (IMAP_union_ref dest src).1.data = dest.data ∧
      dest.size ≤ (IMAP_union_ref dest src).1.size ∧
      (IMAP_union_ref dest src).1.size + (IMAP_union_ref dest src).2.length
        = dest.size + src.size ∧
      (∀ j, IMAP_get (IMAP_union_ref dest src).1 j
        = oor (IMAP_get dest j) (IMAP_get src j)) ∧
      (∀ v ∈ (IMAP_union_ref dest src).2, ∃ j,
        (IMAP_get dest j).isSome = true ∧ IMAP_get src j = some v))
    (fun ss : List (Node V) => ∀ ds : List (Node V), ds.length = ss.length →
      listWF ds = true → listWF ss = true →
      listWF (IMAP_unionSlots ds ss).1 = true ∧
      (IMAP_unionSlots ds ss).1.length = ds.length ∧
      (IMAP_unionSlots ds ss).2.1 + (IMAP_unionSlots ds ss).2.2.length
        = listTotal ss ∧
      listTotal (IMAP_unionSlots ds ss).1
        = listTotal ds + (IMAP_unionSlots ds ss).2.1 ∧
      (∀ i q, i < ss.length →
        slotGet ((IMAP_unionSlots ds ss).1.getD i Node.empty) q
          = oor (slotGet (ds.getD i Node.empty) q)
                (slotGet (ss.getD i Node.empty) q)) ∧
      (∀ v ∈ (IMAP_unionSlots ds ss).2.2, ∃ i q, i < ss.length ∧
        (slotGet (ds.getD i Node.empty) q).isSome = true ∧
        slotGet (ss.getD i Node.empty) q = some v))
  · intro ds hlen hwfds hwfss
    rw [unionSlots_nil_right]
    refine ⟨hwfds, rfl, ?_, ?_, ?_, ?_⟩
    · rw [listTotal_nil]
      rfl
    · rfl
    · intro i q hi
      simp only [List.length_nil] at hi
      omega
    · intro v hv
      exact absurd hv (List.not_mem_nil v)
  · intro s ss hPs hQss ds hlen hwfds hwfss
    cases ds with
    | nil => simp at hlen
    | cons d ds1 =>
      rw [listWF_cons] at hwfds hwfss
      simp only [Bool.and_eq_true] at hwfds hwfss
      obtain ⟨hwfd, hwfds1⟩ := hwfds
      obtain ⟨hwfs, hwfss1⟩ := hwfss
      have hlen1 : ds1.length = ss.length := by
        simp only [List.length_cons] at hlen
        omega
      obtain ⟨hr1, hr2, hr3, hr4, hr5, hr6⟩ := hQss ds1 hlen1 hwfds1 hwfss1
      obtain ⟨hh1, hh2, hh3, hh4, hh5⟩ :=
        unionHead_ok d s hwfd hwfs
          (fun dest hwd hdc hsc => hPs dest hwd hwfs hdc hsc)
      rw [unionSlots_cons]
      refine ⟨?_, ?_, ?_, ?_, ?_, ?_⟩
      · rw [listWF_cons, hh1, hr1]
        rfl
      · simp only [List.length_cons, hr2]
      · simp only [List.length_append, listTotal_cons]
        omega
      · simp only [listTotal_cons]
        rw [hh3, hr4]
        omega
      · intro i q hi
        cases i with
        | zero =>
          simp only [List.getD_cons_zero]
          exact hh4 q
        | succ i1 =>
          simp only [List.getD_cons_succ]
          exact hr5 i1 q (by simp only [List.length_cons] at hi; omega)
      · intro v hv
        rw [List.mem_append] at hv
        rcases hv with hv1 | hv2
        · obtain ⟨q, hq1, hq2⟩ := hh5 v hv1
          refine ⟨0, q, by simp, ?_, ?_⟩
          · simp only [List.getD_cons_zero]
            exact hq1
          · simp only [List.getD_cons_zero]
            exact hq2
        · obtain ⟨i, q, hi, hq1, hq2⟩ := hr6 v hv2
          refine ⟨i + 1, q, by simp only [List.length_cons]; omega, ?_, ?_⟩
          · simp only [List.getD_cons_succ]
            exact hq1
          · simp only [List.getD_cons_succ]
            exact hq2
  · intro d s cso IH dest hwfdest hwfsrc hdc hsc
    cases cso with
    | none => simp at hsc
    | some sl =>
      obtain ⟨dl, hdl⟩ : ∃ dl, dest.children = some dl := by
        cases hd : dest.children with
        | none => rw [hd] at hdc; simp at hdc
        | some x => exact ⟨x, rfl⟩
      obtain ⟨hsl32, hssz, hssz0, hslwf⟩ := nodeWF_some d s sl hwfsrc
      obtain ⟨hdl32, hdsz, hdsz0, hdlwf⟩ :
          dl.length = 32 ∧ dest.size = listTotal dl ∧ dest.size ≠ 0 ∧
            listWF dl = true := by
        cases dest with
        | mk dd dsz dcs =>
          simp only [Node.children_mk] at hdl
          subst hdl
          have hp := nodeWF_some dd dsz dl hwfdest
          exact ⟨hp.1, by simpa using hp.2.1, by simpa using hp.2.2.1,
            hp.2.2.2⟩
      obtain ⟨hm1, hm2, hm3, hm4, hm5, hm6⟩ :=
        IH sl rfl dl (by rw [hdl32, hsl32]) hdlwf hslwf
      rw [union_ref_unfold, hdl]
      simp only [Node.children_mk, Option.getD_some]
      refine ⟨?_, rfl, ?_, ?_, ?_, ?_⟩
      · exact nodeWF_mk_some dest.data _ _ (by rw [hm2, hdl32])
          (by omega) (by omega) hm1
      · simp only [Node.size_mk]
        omega
      · simp only [Node.size_mk]
        omega
      · intro j
        rw [IMAP_get_slots]
        conv_rhs =>
          rw [← Node.eta dest, hdl, IMAP_get_slots, IMAP_get_slots]
        have hjlt : j % 32 < sl.length := by
          rw [hsl32]
          omega
        exact hm5 (j % 32) (j / 32) hjlt
      · intro v hv
        obtain ⟨i, q, hi, hq1, hq2⟩ := hm6 v hv
        have hi32 : i < 32 := by rw [← hsl32]; exact hi
        refine ⟨i + 32 * q, ?_, ?_⟩
        · conv_lhs => rw [← Node.eta dest, hdl, IMAP_get_slots]
          rw [show (i + 32 * q) % 32 = i from by omega,
            show (i + 32 * q) / 32 = q from by omega]
          exact hq1
        · rw [IMAP_get_slots,
            show (i + 32 * q) % 32 = i from by omega,
            show (i + 32 * q) / 32 = q from by omega]
          exact hq2

theorem imap_union_ok {V : Type} (dest source : Imap V)
    (hwfd : imapWF dest = true) (hwfs : imapWF source = true) :
    imapWF (imap_union_ref dest source).1 = true ∧
    (imap_union_ref dest source).1.len + (imap_union_ref dest source).2.length
      = dest.len + source.len ∧
    (∀ k, imap_get (imap_union_ref dest source).1 k
      = oor (imap_get dest k) (imap_get source k)) ∧
    (∀ v ∈ (imap_union_ref dest source).2, ∃ k,
      (imap_get dest k).isSome = true ∧ imap_get source k = some v) := by
  obtain ⟨hdlen, hdsl, hdlwf⟩ := imapWF_parts dest hwfd
  obtain ⟨hslen, hssl, hslwf⟩ := imapWF_parts source hwfs
  by_cases hl : source.len = 0
  · rw [imap_union_ref, if_pos hl]
    refine ⟨hwfd, by simp only [List.length_nil]; omega, ?_, ?_⟩
    · intro k
      rw [imap_get_len_zero source hwfs hl k, oor_none_right]
    · intro v hv
      exact absurd hv (List.not_mem_nil v)
  · rw [imap_union_ref, if_neg hl]
    simp only []
    obtain ⟨hm1, hm2, hm3, hm4, hm5, hm6⟩ :=
      union_slots_main.2 source.nodes dest.nodes (by rw [hdlen, hslen])
        hdlwf hslwf
    refine ⟨?_, ?_, ?_, ?_⟩
    · exact imapWF_mk _ _ (by rw [hm2, hdlen]) (by omega) hm1
    · omega
    · intro k
      rw [imap_get_slots, imap_get_slots, imap_get_slots]
      simp only []
      exact hm5 (k % 32) (k / 32) (by rw [hslen]; omega)
    · intro v hv
      obtain ⟨i, q, hi, hq1, hq2⟩ := hm6 v hv
      have hi32 : i < 32 := by rw [← hslen]; exact hi
      refine ⟨i + 32 * q, ?_, ?_⟩
      · rw [imap_get_slots,
          show (i + 32 * q) % 32 = i from by omega,
          show (i + 32 * q) / 32 = q from by omega]
        exact hq1
      · rw [imap_get_slots,
          show (i + 32 * q) % 32 = i from by omega,
          show (i + 32 * q) / 32 = q from by omega]
        exact hq2

/-! ### The empty oracle never produces an allocation failure -/

theorem IMAP_add_nofail {V : Type} (id : Nat) :
    ∀ (nd : Node V) (v : V), (IMAP_add [] nd id v).2.2 ≠ -1 := by
  induction id using Nat.strong_induction_on with
  | _ id IH =>
  intro nd v
  by_cases hs : nd.size = 0
  · by_cases hq : id / 32 = 0
    · rw [IMAP_add_fresh_leaf [] [] nd id v hs rfl hq]
      simp
    · rw [IMAP_add_fresh_deep [] [] nd id v hs rfl hq]
      simp only []
      exact IH (id / 32 - 1) (by omega) Node.empty v
  · by_cases hq : id / 32 = 0
    · rw [IMAP_add_old_leaf [] nd id v hs hq]
      simp only []
      split <;> simp
    · rw [IMAP_add_old_deep [] nd id v hs hq]
      simp only []
      exact IH (id / 32 - 1) (by omega) _ v

theorem imap_add_nofail {V : Type} (m : Imap V) (id : Nat) (v : V) :
    (imap_add [] m id v).2.2 ≠ -1 := by
  by_cases hq : id / 32 = 0
  · rw [imap_add_leaf [] m id v hq]
    simp
  · rw [imap_add_deep [] m id v hq]
    simp only []
    exact IMAP_add_nofail (id / 32 - 1) _ v

/-! ### The size/children coupling as a standalone recursive predicate -/

mutual

/-- The claimed per-node invariant, at a node and all its descendants:
`size = 0` exactly when the children array is absent. -/
def sizeInv {V : Type} : Node V → Bool
  | .mk _ s none => s == 0
  | .mk _ s (some l) => (!(s == 0)) && listSizeInv l
termination_by nd => sizeOf nd
decreasing_by simp; try omega

/-- The size/children coupling for every node of a slot array. -/
def listSizeInv {V : Type} : List (Node V) → Bool
  | [] => true
  | c :: rest => sizeInv c && listSizeInv rest
termination_by l => sizeOf l
decreasing_by all_goals (simp; try omega)

end

theorem WF_sizeInv {V : Type} :
    (∀ c : Node V, nodeWF c = true → sizeInv c = true) ∧
    (∀ l : List (Node V), listWF l = true → listSizeInv l = true) := by
  apply nodeListInd
    (fun c : Node V => nodeWF c = true → sizeInv c = true)
    (fun l : List (Node V) => listWF l = true → listSizeInv l = true)
  · intro h
    simp [listSizeInv]
  · intro c cs hc hcs h
    rw [listWF_cons] at h
    simp only [Bool.and_eq_true] at h
    have h1 := hc h.1
    have h2 := hcs h.2
    simp [listSizeInv, h1, h2]
  · intro d s cso IH h
    cases cso with
    | none =>
      have hz := nodeWF_none d s h
      simp [sizeInv, hz]
    | some l =>
      obtain ⟨h1, h2, h3, h4⟩ := nodeWF_some d s l h
      have h5 := IH l rfl h4
      simp [sizeInv, h3, h5]

/-! ### Sequences of successful public mutations, for the count invariant -/

/-- One public mutating operation on the map. -/
inductive Op (V : Type) where
  | add (id : Nat) (v : V)
  | pop (id : Nat)

/-- Apply one operation, drawing allocations from the always-succeeding
(empty) oracle, so every `add` succeeds. -/
def applyOp {V : Type} (m : Imap V) : Op V → Imap V
  | .add id v => (imap_add [] m id v).2.1
  | .pop id => (imap_pop m id).1

/-- Apply a whole operation sequence to a map, left to right. -/
def applyOps {V : Type} (m : Imap V) (ops : List (Op V)) : Imap V :=
  ops.foldl applyOp m

/-- One step of the reference bookkeeping: the set of live keys after an
operation. -/
def liveStep {V : Type} (S : Finset Nat) : Op V → Finset Nat
  | .add id _ => insert id S
  | .pop id => S.erase id

/-- The keys whose most recent operation in the sequence is an `add` that was
not popped afterwards. -/
def liveSet {V : Type} (ops : List (Op V)) : Finset Nat :=
  ops.foldl liveStep ∅

theorem applyOps_invariant {V : Type} (ops : List (Op V)) :
    ∀ (m : Imap V) (S : Finset Nat), imapWF m = true → m.len = S.card →
    (∀ k, (imap_get m k).isSome = true ↔ k ∈ S) →
    imapWF (applyOps m ops) = true ∧
    (applyOps m ops).len = (ops.foldl liveStep S).card ∧
    (∀ k, (imap_get (applyOps m ops) k).isSome = true
      ↔ k ∈ ops.foldl liveStep S) := by
  induction ops with
  | nil =>
    intro m S h1 h2 h3
    exact ⟨h1, h2, h3⟩
  | cons op rest ih =>
    intro m S h1 h2 h3
    have hstep : applyOps m (op :: rest) = applyOps (applyOp m op) rest := rfl
    have hfold : (op :: rest).foldl liveStep S
        = rest.foldl liveStep (liveStep S op) := rfl
    rw [hstep, hfold]
    cases op with
    | add id v =>
      have hadd := imap_add_ok [] m id v h1 (imap_add_nofail m id v)
      apply ih (applyOp m (.add id v)) (insert id S) hadd.1
      · show (imap_add [] m id v).2.1.len = (insert id S).card
        rw [hadd.2.1]
        by_cases hmem : (imap_get m id).isSome = true
        · have hin : id ∈ S := (h3 id).1 hmem
          rw [Finset.card_insert_of_mem hin, if_pos hmem]
          omega
        · have hout : id ∉ S := fun hin => hmem ((h3 id).2 hin)
          rw [Finset.card_insert_of_not_mem hout, if_neg hmem]
          omega
      · intro k
        show (imap_get (imap_add [] m id v).2.1 k).isSome = true
          ↔ k ∈ insert id S
        by_cases hk : k = id
        · subst hk
          rw [hadd.2.2.1]
          simp
        · rw [hadd.2.2.2.1 k hk, h3 k]
          simp [Finset.mem_insert, hk]
    | pop id =>
      have hpop := imap_pop_ok m id h1
      apply ih (applyOp m (.pop id)) (S.erase id) hpop.1
      · show (imap_pop m id).1.len = (S.erase id).card
        by_cases hmem : (imap_get m id).isSome = true
        · have hin : id ∈ S := (h3 id).1 hmem
          rw [Finset.card_erase_of_mem hin]
          have := hpop.2.2.1
          rw [if_pos hmem] at this
          omega
        · have hout : id ∉ S := fun hin => hmem ((h3 id).2 hin)
          rw [Finset.erase_eq_of_not_mem hout]
          have := hpop.2.2.1
          rw [if_neg hmem] at this
          omega
      · intro k
        show (imap_get (imap_pop m id).1 k).isSome = true ↔ k ∈ S.erase id
        by_cases hk : k = id
        · subst hk
          rw [hpop.2.2.2.1]
          simp
        · rw [hpop.2.2.2.2.1 k hk, h3 k]
          simp [Finset.mem_erase, hk]

/-! ### A concrete failed deep insert, fully computed -/

theorem IMAP_add_32_fail {V : Type} (v : V) :
    IMAP_add [true, false] (Node.empty : Node V) 32 v
      = ([], Node.mk none 0
          (some ((List.replicate 32 Node.empty).set 0 (Node.mk none 0 none))),
         -1) := by
  have h1 : IMAP_add [false] (Node.empty : Node V) 0 v
      = ([], Node.mk none 0 none, -1) :=
    IMAP_add_fail [false] [] Node.empty 0 v rfl rfl
  have h2 : (32 : Nat) / 32 - 1 = 0 := by norm_num
  rw [IMAP_add_fresh_deep [true, false] [false] Node.empty 32 v rfl rfl
    (by norm_num), h2, h1]
  rfl

theorem imap_add_deep_fail_shape {V : Type} (id : Nat) (v : V)
    (hq : id / 32 = 33) :
    imap_add [true, false] (imap_new : Imap V) id v
      = ([], ⟨0, (imap_new : Imap V).nodes.set (id % 32)
          (Node.mk none 0
            (some ((List.replicate 32 Node.empty).set 0
              (Node.mk none 0 none))))⟩,
         -1) := by
  have hnd : (imap_new : Imap V).nodes.getD (id % 32) Node.empty
      = Node.empty := by
    have h := getD_replicate 32 (id % 32) (Node.empty : Node V) Node.empty
      (by omega)
    simpa [imap_new] using h
  have hq1 : id / 32 - 1 = 32 := by omega
  rw [imap_add_deep [true, false] imap_new id v (by omega), hnd, hq1,
    IMAP_add_32_fail v]
  rfl

/-! ### The claims -/

/-- C1: the spec says `add` returns Inserted (1) exactly when no entry
existed at the key, for every key including keys below 32.  The code
contradicts this (and its own documentation): for a fresh key below 32 the
top-level branch of `imap_add` returns 0 (the Overwritten code) while still
incrementing the count, although the same fresh insert at a deep key returns
1. -/
theorem C1_leaf_insert_reports_overwritten :
    imap_get (imap_new : Imap Nat) 5 = none ∧
    (imap_add [] (imap_new : Imap Nat) 5 7).2.2 = 0 ∧
    (imap_add [] (imap_new : Imap Nat) 5 7).2.1.len = 1 ∧
    imap_get (imap_add [] (imap_new : Imap Nat) 5 7).2.1 5 = some 7 ∧
    (imap_add [] (imap_new : Imap Nat) 37 7).2.2 = 1 := by
  refine ⟨rfl, rfl, rfl, rfl, ?_⟩
  have hnd : (imap_new : Imap Nat).nodes.getD (37 % 32) Node.empty
      = Node.empty := rfl
  have hq1 : (37 : Nat) / 32 - 1 = 0 := by norm_num
  rw [imap_add_deep [] imap_new 37 7 (by norm_num), hnd, hq1,
    IMAP_add_fresh_leaf [] [] Node.empty 0 7 rfl rfl rfl]

/-- C2: after any finite sequence of successful adds and pops starting from a
fresh map, the count equals the number of distinct keys whose most recent
operation is an add that was not popped afterwards, and also equals the
number of value-bearing slots reachable from the top-level array summed
recursively (`listTotal`). -/
theorem C2_count_invariant {V : Type} (ops : List (Op V)) :
    imapWF (applyOps imap_new ops) = true ∧
    (applyOps imap_new ops).len = (liveSet ops).card ∧
    (applyOps imap_new ops).len = listTotal (applyOps imap_new ops).nodes ∧
    (∀ k, (imap_get (applyOps imap_new ops) k).isSome = true
      ↔ k ∈ liveSet ops) := by
  have h := applyOps_invariant ops imap_new ∅ imapWF_new (by simp [imap_new])
    (fun k => by
      rw [imap_get_len_zero imap_new imapWF_new rfl k]
      simp)
  exact ⟨h.1, h.2.1, (imapWF_parts _ h.1).2.1, h.2.2⟩

/-- C3 counterexample: `imap_add` with an allocation oracle that succeeds
once and then fails (key 1056 needs two fresh children arrays) reports the
failure (-1) but does NOT leave the structure exactly as it was: the freshly
allocated children array, holding a partially constructed chain, stays
linked into the top-level slot. -/
theorem C3_failed_add_leaves_array_linked :
    (imap_add [true, false] (imap_new : Imap Nat) 1056 7).2.2 = -1 ∧
    ((imap_add [true, false] (imap_new : Imap Nat) 1056 7).2.1.nodes.getD 0
      Node.empty).children.isSome = true ∧
    ((imap_new : Imap Nat).nodes.getD 0 Node.empty).children.isSome
      = false := by
  rw [imap_add_deep_fail_shape 1056 7 (by norm_num)]
  exact ⟨rfl, rfl, rfl⟩

/-- C3 (amended): a failed add aborts the operation and is invisible to every
observation the interface offers - the count, every lookup, the traversal
order and every pop result are exactly those of the original map - though
the freshly allocated (empty) children arrays themselves may stay linked. -/
theorem C3_failed_add_preserves_observations {V : Type} (al : List Bool)
    (m : Imap V) (id : Nat) (v : V) (hwf : imapWF m = true)
    (hrc : (imap_add al m id v).2.2 = -1) :
    (imap_add al m id v).2.1.len = m.len ∧
    (∀ j, imap_get (imap_add al m id v).2.1 j = imap_get m j) ∧
    imap_walk_order (imap_add al m id v).2.1 = imap_walk_order m ∧
    (∀ k, (imap_pop (imap_add al m id v).2.1 k).2 = (imap_pop m k).2) :=
  imap_add_fail_ok al m id v hwf hrc

/-- C3 witness: the amended theorem applied to the concrete failed insert of
key 1056 with oracle [true, false]. -/
theorem C3_failed_add_preserves_observations_witness :
    (imap_add [true, false] (imap_new : Imap Nat) 1056 9).2.1.len
      = (imap_new : Imap Nat).len ∧
    imap_get (imap_add [true, false] (imap_new : Imap Nat) 1056 9).2.1 33
      = imap_get (imap_new : Imap Nat) 33 := by
  have h := C3_failed_add_preserves_observations [true, false] imap_new 1056 9
    imapWF_new (by rw [imap_add_deep_fail_shape 1056 9 (by norm_num)])
  exact ⟨h.1, h.2.1 33⟩

/-- C4: merging `source` into `dest` by reference leaves `dest` holding
exactly the union of the two key/value sets (destination value winning on a
shared key, where the claim assumes both are the same object), accounts the
count so that new count plus the number of release events equals the two
original counts combined, and fires the release hook only for values at keys
present in both maps.  The freed source map and the cleared handle are
modelled by the merge consuming the source: only the merged destination and
the release trace are returned. -/
theorem C4_union_merges {V : Type} (dest source : Imap V)
    (hwfd : imapWF dest = true) (hwfs : imapWF source = true) :
    imapWF (imap_union_ref dest source).1 = true ∧
    (∀ k, imap_get (imap_union_ref dest source).1 k
      = oor (imap_get dest k) (imap_get source k)) ∧
    (imap_union_ref dest source).1.len
        + (imap_union_ref dest source).2.length
      = dest.len + source.len ∧
    (∀ v ∈ (imap_union_ref dest source).2, ∃ k,
      (imap_get dest k).isSome = true ∧ imap_get source k = some v) := by
  obtain ⟨h1, h2, h3, h4⟩ := imap_union_ok dest source hwfd hwfs
  exact ⟨h1, h3, h2, h4⟩

/-- C4 witness: the union theorem applied to two concrete one-entry maps. -/
theorem C4_union_merges_witness :
    imapWF (imap_union_ref (imap_add [] (imap_new : Imap Nat) 1 10).2.1
      (imap_add [] (imap_new : Imap Nat) 2 20).2.1).1 = true ∧
    (imap_union_ref (imap_add [] (imap_new : Imap Nat) 1 10).2.1
        (imap_add [] (imap_new : Imap Nat) 2 20).2.1).1.len
      + (imap_union_ref (imap_add [] (imap_new : Imap Nat) 1 10).2.1
          (imap_add [] (imap_new : Imap Nat) 2 20).2.1).2.length
      = (imap_add [] (imap_new : Imap Nat) 1 10).2.1.len
        + (imap_add [] (imap_new : Imap Nat) 2 20).2.1.len ∧
    imap_get (imap_union_ref (imap_add [] (imap_new : Imap Nat) 1 10).2.1
        (imap_add [] (imap_new : Imap Nat) 2 20).2.1).1 2
      = oor (imap_get (imap_add [] (imap_new : Imap Nat) 1 10).2.1 2)
          (imap_get (imap_add [] (imap_new : Imap Nat) 2 20).2.1 2) := by
  have h := C4_union_merges (imap_add [] (imap_new : Imap Nat) 1 10).2.1
    (imap_add [] (imap_new : Imap Nat) 2 20).2.1
    (imap_add_ok [] imap_new 1 10 imapWF_new (imap_add_nofail imap_new 1 10)).1
    (imap_add_ok [] imap_new 2 20 imapWF_new (imap_add_nofail imap_new 2 20)).1
  exact ⟨h.1, h.2.2.1, h.2.1 2⟩

/-- C5 counterexample: after a failed deep add (a public operation), a node
below the top level is left with `size = 0` yet a present children array, so
the claimed coupling does not survive allocation failures. -/
theorem C5_failed_add_breaks_coupling :
    ((imap_add [true, false] (imap_new : Imap Nat) 1057 9).2.1.nodes.getD 1
      Node.empty).size = 0 ∧
    ((imap_add [true, false] (imap_new : Imap Nat) 1057 9).2.1.nodes.getD 1
      Node.empty).children.isSome = true := by
  rw [imap_add_deep_fail_shape 1057 9 (by norm_num)]
  exact ⟨rfl, rfl⟩

/-- C5 (amended): after every SUCCESSFUL public operation - an add that did
not report an allocation failure, any pop, and any union - every node of the
resulting tree satisfies the coupling: `size = 0` exactly when the children
array is absent (`sizeInv`, recursively at all depths). -/
theorem C5_size_children_coupling {V : Type} (al : List Bool) (m m2 : Imap V)
    (id : Nat) (v : V) (hwf : imapWF m = true) (hwf2 : imapWF m2 = true) :
    ((imap_add al m id v).2.2 ≠ -1 →
      listSizeInv (imap_add al m id v).2.1.nodes = true) ∧
    listSizeInv (imap_pop m id).1.nodes = true ∧
    listSizeInv (imap_union_ref m m2).1.nodes = true := by
  refine ⟨?_, ?_, ?_⟩
  · intro h
    exact WF_sizeInv.2 _ (imapWF_parts _ (imap_add_ok al m id v hwf h).1).2.2
  · exact WF_sizeInv.2 _ (imapWF_parts _ (imap_pop_ok m id hwf).1).2.2
  · exact WF_sizeInv.2 _ (imapWF_parts _ (imap_union_ok m m2 hwf hwf2).1).2.2

/-- C5 witness: the coupling after a concrete successful add, pop and
union. -/
theorem C5_size_children_coupling_witness :
    listSizeInv (imap_add [] (imap_new : Imap Nat) 3 1).2.1.nodes = true ∧
    listSizeInv (imap_pop (imap_new : Imap Nat) 3).1.nodes = true ∧
    listSizeInv (imap_union_ref (imap_new : Imap Nat) imap_new).1.nodes
      = true := by
  have h := C5_size_children_coupling [] (imap_new : Imap Nat) imap_new 3 1
    imapWF_new imapWF_new
  exact ⟨h.1 (imap_add_nofail imap_new 3 1), h.2.1, h.2.2⟩

/-- C6: after adding a value at a key, popping that key returns the value,
a subsequent lookup finds nothing, and the count drops by one; popping an
absent key returns the absent sentinel and leaves the map (count included)
completely unchanged. -/
theorem C6_pop_semantics {V : Type} (m : Imap V) (k : Nat) (v : V)
    (hwf : imapWF m = true) :
    (imap_pop (imap_add [] m k v).2.1 k).2 = some v ∧
    imap_get (imap_pop (imap_add [] m k v).2.1 k).1 k = none ∧
    (imap_pop (imap_add [] m k v).2.1 k).1.len + 1
      = (imap_add [] m k v).2.1.len ∧
    (imap_get m k = none →
      (imap_pop m k).2 = none ∧ (imap_pop m k).1 = m) := by
  have hadd := imap_add_ok [] m k v hwf (imap_add_nofail m k v)
  have hpop := imap_pop_ok (imap_add [] m k v).2.1 k hadd.1
  refine ⟨?_, hpop.2.2.2.1, ?_, ?_⟩
  · rw [hpop.2.1, hadd.2.2.1]
  · have hl := hpop.2.2.1
    rw [hadd.2.2.1] at hl
    simpa using hl
  · intro hnone
    have hp := imap_pop_ok m k hwf
    have h2 : (imap_pop m k).2 = none := by rw [hp.2.1, hnone]
    exact ⟨h2, hp.2.2.2.2.2 h2⟩

/-- C6 witness: pop after add at key 4 on a fresh map, and a pop of the
absent key 6. -/
theorem C6_pop_semantics_witness :
    (imap_pop (imap_add [] (imap_new : Imap Nat) 4 2).2.1 4).2 = some 2 ∧
    imap_get (imap_pop (imap_add [] (imap_new : Imap Nat) 4 2).2.1 4).1 4
      = none ∧
    (imap_pop (imap_add [] (imap_new : Imap Nat) 4 2).2.1 4).1.len + 1
      = (imap_add [] (imap_new : Imap Nat) 4 2).2.1.len ∧
    (imap_pop (imap_new : Imap Nat) 6).2 = none ∧
    (imap_pop (imap_new : Imap Nat) 6).1 = imap_new := by
  have h := C6_pop_semantics (imap_new : Imap Nat) 4 2 imapWF_new
  have h6 := C6_pop_semantics (imap_new : Imap Nat) 6 2 imapWF_new
  exact ⟨h.1, h.2.1, h.2.2.1, (h6.2.2.2 rfl).1, (h6.2.2.2 rfl).2⟩

/-- C7: two adds at distinct keys both survive: each key then looks up its
own value, at every key size including keys near the 64-bit maximum (the
embedding's keys are unbounded naturals, so every 64-bit key is covered). -/
theorem C7_two_adds_roundtrip {V : Type} (m : Imap V) (k1 k2 : Nat)
    (v1 v2 : V) (hwf : imapWF m = true) (hne : k1 ≠ k2) :
    imap_get (imap_add [] (imap_add [] m k1 v1).2.1 k2 v2).2.1 k1
      = some v1 ∧
    imap_get (imap_add [] (imap_add [] m k1 v1).2.1 k2 v2).2.1 k2
      = some v2 := by
  have h1 := imap_add_ok [] m k1 v1 hwf (imap_add_nofail m k1 v1)
  have h2 := imap_add_ok [] (imap_add [] m k1 v1).2.1 k2 v2 h1.1
    (imap_add_nofail _ k2 v2)
  refine ⟨?_, h2.2.2.1⟩
  rw [h2.2.2.2.1 k1 hne, h1.2.2.1]

/-- C7 witness: the round trip at the two largest 64-bit keys. -/
theorem C7_two_adds_roundtrip_witness :
    imap_get (imap_add [] (imap_add [] (imap_new : Imap Nat)
        18446744073709551615 1).2.1 18446744073709551614 2).2.1
      18446744073709551615 = some 1 ∧
    imap_get (imap_add [] (imap_add [] (imap_new : Imap Nat)
        18446744073709551615 1).2.1 18446744073709551614 2).2.1
      18446744073709551614 = some 2 :=
  C7_two_adds_roundtrip (imap_new : Imap Nat) 18446744073709551615
    18446744073709551614 1 2 imapWF_new (by decide)

/-- C8: with a callback that always returns 1, the bounded walk visits
exactly min(budget, count) entries, and they are precisely the first
`budget` entries of the full walk order. -/
theorem C8_walkn_budget {V : Type} (m : Imap V) (n : Nat) (cb : V → Int)
    (hcb : ∀ v, cb v = 1) (hwf : imapWF m = true) (h64 : n < 2 ^ 64) :
    (imap_walkn m n cb).2 = (imap_walk_order m).take n ∧
    (imap_walkn m n cb).2.length = min n m.len :=
  imap_walkn_ok m n cb hcb hwf h64

/-- C8 witness: budget 1 on a concrete two-entry map. -/
theorem C8_walkn_budget_witness :
    (imap_walkn (imap_add [] (imap_add [] (imap_new : Imap Nat) 3 5).2.1
        7 6).2.1 1 (fun x => (1 : Int))).2
      = (imap_walk_order (imap_add [] (imap_add [] (imap_new : Imap Nat)
          3 5).2.1 7 6).2.1).take 1 ∧
    (imap_walkn (imap_add [] (imap_add [] (imap_new : Imap Nat) 3 5).2.1
        7 6).2.1 1 (fun x => (1 : Int))).2.length
      = min 1 (imap_add [] (imap_add [] (imap_new : Imap Nat) 3 5).2.1
          7 6).2.1.len :=
  C8_walkn_budget (imap_add [] (imap_add [] (imap_new : Imap Nat) 3 5).2.1
      7 6).2.1 1 (fun x => (1 : Int)) (fun v => rfl)
    (imap_add_ok [] (imap_add [] (imap_new : Imap Nat) 3 5).2.1 7 6
      (imap_add_ok [] imap_new 3 5 imapWF_new
        (imap_add_nofail imap_new 3 5)).1
      (imap_add_nofail (imap_add [] (imap_new : Imap Nat) 3 5).2.1 7 6)).1
    (by norm_num)

/-- C9: when the sequence allocation succeeds, `imap_2slist` returns exactly
the walk order: a list whose length is the count and whose members are
precisely the currently stored values. -/
theorem C9_2slist_complete {V : Type} (al al1 : List Bool) (m : Imap V)
    (halloc : allocNext al = (true, al1)) (hwf : imapWF m = true) :
    imap_2slist al m = (al1, some (imap_walk_order m)) ∧
    (imap_walk_order m).length = m.len ∧
    (∀ v, v ∈ imap_walk_order m ↔ ∃ k, imap_get m k = some v) :=
  ⟨imap_2slist_ok al al1 m halloc, walk_order_length m hwf,
   fun v => walk_order_mem m hwf v⟩

/-- C9 witness: the sequence of a concrete one-entry map. -/
theorem C9_2slist_complete_witness :
    imap_2slist [] (imap_add [] (imap_new : Imap Nat) 5 11).2.1
      = ([], some (imap_walk_order
          (imap_add [] (imap_new : Imap Nat) 5 11).2.1)) ∧
    (imap_walk_order (imap_add [] (imap_new : Imap Nat) 5 11).2.1).length
      = (imap_add [] (imap_new : Imap Nat) 5 11).2.1.len ∧
    (11 ∈ imap_walk_order (imap_add [] (imap_new : Imap Nat) 5 11).2.1
      ↔ ∃ k, imap_get (imap_add [] (imap_new : Imap Nat) 5 11).2.1 k
          = some 11) := by
  have h := C9_2slist_complete [] [] (imap_add [] (imap_new : Imap Nat)
      5 11).2.1 rfl
    (imap_add_ok [] imap_new 5 11 imapWF_new
      (imap_add_nofail imap_new 5 11)).1
  exact ⟨h.1, h.2.1, h.2.2 11⟩

/-- C10: the bounded walk's budget is a 64-bit unsigned word: when the
callback returns more than the remaining budget the subtraction wraps
modulo 2^64 to a large nonzero value, so the traversal keeps going - it
stops early only when the budget lands on exactly zero. -/
theorem C10_walkn_budget_wraps (cb : Nat → Int) (n : Nat) (v : Nat) (c : Int)
    (hcb : cb v = c) (hn : 0 < n) (hlo : (n : Int) < c)
    (hhi : c ≤ 2 ^ 64) :
    walknStep cb n v = ((2 ^ 64 : Int) + n - c).toNat ∧
    walknStep cb n v ≠ 0 ∧
    (∀ (s : Nat) (rest : List (Node Nat)),
      IMAP_walknList cb (Node.mk (some v) s none :: rest) n
        = ((IMAP_walknList cb rest (walknStep cb n v)).1,
           v :: (IMAP_walknList cb rest (walknStep cb n v)).2)) := by
  have hpow : (2 : Int) ^ 64 = 18446744073709551616 := by norm_num
  rw [hpow] at hhi
  have h1 : walknStep cb n v = ((2 ^ 64 : Int) + n - c).toNat := by
    simp only [walknStep, hcb, hpow]
    omega
  have h2 : walknStep cb n v ≠ 0 := by
    simp only [walknStep, hcb, hpow]
    omega
  refine ⟨h1, h2, ?_⟩
  intro s rest
  rw [walknList_cons cb _ rest n (by omega),
    walknNode_some_none cb v s n h2]
  simp

/-- C10 witness: budget 1, callback result 2: the budget wraps to 2^64 - 1
and the slot loop continues into the rest of the array. -/
theorem C10_walkn_budget_wraps_witness :
    walknStep (fun x : Nat => (2 : Int)) 1 0
      = ((2 ^ 64 : Int) + 1 - 2).toNat ∧
    walknStep (fun x : Nat => (2 : Int)) 1 0 ≠ 0 ∧
    IMAP_walknList (fun x : Nat => (2 : Int))
        [Node.mk (some 0) 0 none, Node.mk (some 5) 0 none] 1
      = ((IMAP_walknList (fun x : Nat => (2 : Int))
            [Node.mk (some 5) 0 none]
            (walknStep (fun x : Nat => (2 : Int)) 1 0)).1,
         0 :: (IMAP_walknList (fun x : Nat => (2 : Int))
            [Node.mk (some 5) 0 none]
            (walknStep (fun x : Nat => (2 : Int)) 1 0)).2) := by
  have h := C10_walkn_budget_wraps (fun x : Nat => (2 : Int)) 1 0 2 rfl
    (by norm_num) (by norm_num) (by norm_num)
  exact ⟨h.1, h.2.1, h.2.2 0 [Node.mk (some 5) 0 none]⟩
